import Mathlib

/-!
# pomcpp: the scripted agent's decision core

A shallow embedding of `include/strategy.hpp` (`SortDirections`, `IsInBombRange`) and of
`src/agents/simple_agent.cpp` (`_HasRPLoop`, `_SampleFromMoveQueue`, `_MoveSafeOneSpace`,
`_Decide`, `SimpleAgent::act`, `SimpleAgent::reset`).

The sums and differences that `IsInBombRange` computes on its `int` arguments are 32-bit
values: they wrap around outside the `int` range (`wrapInt`).  The other `int` values (agent
coordinates, danger values, bomb counts) are only compared or handed on and are mathematical
integers here.  Counters that the code never drives below zero (`count`, `index`, loop indices)
are natural numbers.
-/

set_option autoImplicit false

namespace bboard

/-! ## Data model -/

/-- Position: an integer pair on the board; `==` in the source compares both coordinates. -/
structure Position where
  x : Int
  y : Int
deriving DecidableEq

/-- Move: the closed enum of the six actions, in the order of their numeric values 0..5. -/
inductive Move where
  | IDLE
  | UP
  | DOWN
  | LEFT
  | RIGHT
  | BOMB
deriving DecidableEq

/-- Number of variants of `Move`; the capacity of every candidate queue. -/
def MOVE_COUNT : Nat := 6

/-- Conversion `Move(n)` from the numeric value of the enum; values above 5 name no variant and
are mapped to `BOMB` here, but the code only converts values in 1..4. -/
def Move.cast : Nat → Move
  | 0 => Move.IDLE
  | 1 => Move.UP
  | 2 => Move.DOWN
  | 3 => Move.LEFT
  | 4 => Move.RIGHT
  | _ => Move.BOMB

/-- AgentInfo: the fields of the external agent record that the policy reads. -/
structure AgentInfo where
  x : Int
  y : Int
  bombCount : Int
  maxBombCount : Int

/-- Modelled from the spec: the `FixedQueue<T, TSize>` template of `bboard.hpp`, which is not
part of the given sources.  The spec describes a fixed-capacity ordered sequence with
append-to-back, pop-from-front, arbitrary-index removal-with-shift and random access, kept in a
ring buffer: `queue` is the slot storage (only slots below `TSize` are ever addressed), `index`
the slot of the oldest element and `count` the number of retained elements.  The agent code
reads and writes `count` directly (`reset` only sets it to 0), so the slots keep their old
content when the queue is emptied. -/
structure FixedQueue (T : Type) (TSize : Nat) where
  queue : Nat → T
  index : Nat
  count : Nat

namespace FixedQueue

variable {T : Type} {TSize : Nat}

/-- The `operator[]` of the queue: the element `offset` places after the oldest one, read from
the ring without any check against `count`. -/
def get (q : FixedQueue T TSize) (offset : Nat) : T :=
  q.queue ((q.index + offset) % TSize)

/-- RemainingCapacity: `TSize - count`. -/
def RemainingCapacity (q : FixedQueue T TSize) : Int :=
  (TSize : Int) - (q.count : Int)

/-- PopElem: hands out the oldest element and frees its slot. -/
def PopElem (q : FixedQueue T TSize) : T × FixedQueue T TSize :=
  (q.queue (q.index % TSize),
   { queue := q.queue, index := (q.index + 1) % TSize, count := q.count - 1 })

/-- AddElem: writes the element into the next free slot `(index + count) % TSize`. -/
def AddElem (q : FixedQueue T TSize) (elem : T) : FixedQueue T TSize :=
  { queue := Function.update q.queue ((q.index + q.count) % TSize) elem
    index := q.index
    count := q.count + 1 }

/-- One iteration of the shifting loop of `RemoveAt`: the element at offset `i` is copied into
the slot before it (the slot before slot 0 is slot `TSize - 1`). -/
def RemoveAt.shift (size index : Nat) (mem : Nat → T) (i : Nat) : Nat → T :=
  let translatedIndex := (index + i) % size
  Function.update mem (if translatedIndex = 0 then size - 1 else translatedIndex - 1)
    (mem translatedIndex)

/-- RemoveAt: removal at an offset, shifting the younger elements one slot towards the front
(`for i = removeAt + 1; i < count; i++`). -/
def RemoveAt (q : FixedQueue T TSize) (removeAt : Nat) : FixedQueue T TSize :=
  { queue := (List.range' (removeAt + 1) (q.count - (removeAt + 1))).foldl
      (RemoveAt.shift TSize q.index) q.queue
    index := q.index
    count := q.count - 1 }

/-- The retained window, oldest element first: the entries at offsets `0 .. count - 1`. -/
def toList (q : FixedQueue T TSize) : List T :=
  (List.range q.count).map q.get

/-- A queue holding exactly the given elements, stored from slot 0 on; the other slots hold
`fill`. -/
def ofList (fill : T) (l : List T) : FixedQueue T TSize :=
  { queue := fun s => l.getD s fill, index := 0, count := l.length }

end FixedQueue

end bboard

namespace bboard.util

/-- Modelled from the spec: `util::DesiredPosition` of `step_utility.hpp`, which is not part of
the given sources: the position an agent standing on `(x, y)` intends to occupy after the move.
A directional move steps one cell along its axis, `IDLE` and `BOMB` stay on the cell.  It is
only used to build concrete scenes; the general results take the function as a parameter. -/
def DesiredPosition (x y : Int) (m : Move) : Position :=
  match m with
  | Move.UP => ⟨x, y - 1⟩
  | Move.DOWN => ⟨x, y + 1⟩
  | Move.LEFT => ⟨x - 1, y⟩
  | Move.RIGHT => ⟨x + 1, y⟩
  | _ => ⟨x, y⟩

end bboard.util

namespace bboard.strategy

/-! ## strategy.hpp -/

/-- Smallest value of the 32-bit `int`. -/
def INT_MIN : Int := -2147483648

/-- Largest value of the 32-bit `int`. -/
def INT_MAX : Int := 2147483647

/-- The values of the 32-bit `int`. -/
def InIntRange (z : Int) : Prop := INT_MIN ≤ z ∧ z ≤ INT_MAX

/-- Membership in the `int` range is decidable. -/
instance InIntRange.decidable (z : Int) : Decidable (InIntRange z) :=
  inferInstanceAs (Decidable (INT_MIN ≤ z ∧ z ≤ INT_MAX))

/-- The value a 32-bit `int` holds after an addition or subtraction whose exact result is `z`:
`z` itself inside the `int` range, and `z` wrapped around by a multiple of `2^32` outside. -/
def wrapInt (z : Int) : Int := (z + 2147483648) % 4294967296 - 2147483648

/-- IsInBombRange: true if the position is in range of a bomb planted at `(x, y)` with
strength `s`.  The bounds `x - s`, `x + s`, `y - s`, `y + s` are computed in `int`. -/
def IsInBombRange (x y s : Int) (pos : Position) : Bool :=
  (decide (pos.y = y) && (decide (wrapInt (x - s) ≤ pos.x) && decide (pos.x ≤ wrapInt (x + s))))
    ||
    (decide (pos.x = x) && (decide (wrapInt (y - s) ≤ pos.y) && decide (pos.y ≤ wrapInt (y + s))))

/-- The axis-aligned cross of radius `s` around `(x, y)`: the positions on the same row within
distance `s` or on the same column within distance `s`. -/
def OnCross (x y s : Int) (pos : Position) : Prop :=
  (pos.y = y ∧ |pos.x - x| ≤ s) ∨ (pos.x = x ∧ |pos.y - y| ≤ s)

/-- The inner loop of `SortDirections`: the first index `i < bound` whose move leads from
`(x, y)` to `target`, if there is one. -/
def SortDirections.search (DesiredPosition : Int → Int → Move → Position)
    (q : FixedQueue Move MOVE_COUNT) (target : Position) (x y : Int) (bound : Nat) :
    Option Nat :=
  (List.range bound).find? (fun i => decide (DesiredPosition x y (q.get i) = target))

/-- The outer loop of `SortDirections`, `for j = p.count - 1; j >= 0; j--`: the first argument
is `j + 1`, the state is the queue together with `movedMoves`.  A found move is taken out of
the queue and appended again; the loop is left early once `movedMoves == moves`. -/
def SortDirections.visit {X : Nat} (DesiredPosition : Int → Int → Move → Position)
    (p : FixedQueue Position X) (x y : Int) (moves : Nat) :
    Nat → FixedQueue Move MOVE_COUNT × Nat → FixedQueue Move MOVE_COUNT × Nat
  | 0, st => st
  | j + 1, (q, movedMoves) =>
    match SortDirections.search DesiredPosition q (p.get j) x y (moves - movedMoves) with
    | some i =>
      let qM := q.get i
      let q1 := (q.RemoveAt i).AddElem qM
      if movedMoves + 1 = moves then (q1, movedMoves + 1)
      else SortDirections.visit DesiredPosition p x y moves j (q1, movedMoves + 1)
    | none => SortDirections.visit DesiredPosition p x y moves j (q, movedMoves)

/-- The final loop of `SortDirections`: `n` times `q.AddElem(q.PopElem())`. -/
def SortDirections.rotate : Nat → FixedQueue Move MOVE_COUNT → FixedQueue Move MOVE_COUNT
  | 0, q => q
  | n + 1, q => SortDirections.rotate n (q.PopElem.2.AddElem q.PopElem.1)

/-- SortDirections: sorts a move queue so that moves to unvisited positions are last.  The
history `p` is only read. -/
def SortDirections {X : Nat} (DesiredPosition : Int → Int → Move → Position)
    (q : FixedQueue Move MOVE_COUNT) (p : FixedQueue Position X) (x y : Int) :
    FixedQueue Move MOVE_COUNT :=
  let moves := q.count
  let st := SortDirections.visit DesiredPosition p x y moves p.count (q, 0)
  SortDirections.rotate (moves - st.2) st.1

end bboard.strategy

namespace agents

open bboard bboard.strategy

/-! ## simple_agent.cpp -/

/-- The functions of the repository that the agent calls and whose bodies are not part of the
given sources (`strategy.cpp`, `step_utility.hpp`, the `State` of `bboard.hpp`), taken as
parameters.  All of them read the state without changing it; the movement primitives receive a
candidate queue and hand back the queue they leave behind. -/
structure Strategy (State RMap Item : Type) where
  WOOD : Item
  agents : State → Int → AgentInfo
  DesiredPosition : Int → Int → Move → Position
  FillRMap : State → RMap → Int → RMap
  IsInDanger : State → Int → Int
  IsAdjacentEnemy : State → Int → Int → Bool
  IsAdjacentItem : State → Int → Int → Item → Bool
  MoveTowardsSafePlace :
    State → RMap → Int → FixedQueue Move MOVE_COUNT → Int → FixedQueue Move MOVE_COUNT
  MoveTowardsPowerup : State → RMap → Int → FixedQueue Move MOVE_COUNT → FixedQueue Move MOVE_COUNT
  MoveTowardsEnemy : State → RMap → Int → FixedQueue Move MOVE_COUNT → FixedQueue Move MOVE_COUNT
  SafeDirections : State → FixedQueue Move MOVE_COUNT → Int → Int → FixedQueue Move MOVE_COUNT

/-- SimpleAgent: the per-agent state.  `rng` is the stream of values the generator will hand
out, `rng 0` being the next one; `X` is the capacity of the recent-position history. -/
structure SimpleAgent (RMap : Type) (X : Nat) where
  id : Int
  rng : Nat → Nat
  danger : Int
  r : RMap
  moveQueue : FixedQueue Move MOVE_COUNT
  recentPositions : FixedQueue Position X

variable {State RMap Item : Type} {X : Nat}

/-- One call `me.rng()`: the value drawn and the agent with the advanced generator. -/
def SimpleAgent.draw (me : SimpleAgent RMap X) : Nat × SimpleAgent RMap X :=
  (me.rng 0, { me with rng := fun n => me.rng (n + 1) })

/-- SimpleAgent::reset: resets the internal state by setting both counts to 0. -/
def SimpleAgent.reset (me : SimpleAgent RMap X) : SimpleAgent RMap X :=
  { me with
    moveQueue := { me.moveQueue with count := 0 }
    recentPositions := { me.recentPositions with count := 0 } }

/-- The function `_HasRPLoop`: `for i = 0; i < count / 2; i++` compares the entries `i` and
`i + 2` of the history and answers false at the first pair that differs. -/
def _HasRPLoop (me : SimpleAgent RMap X) : Bool :=
  (List.range (me.recentPositions.count / 2)).all
    (fun i => decide (me.recentPositions.get i = me.recentPositions.get (i + 2)))

/-- The function `_SampleFromMoveQueue`: `IDLE` on an empty queue; with `avoidRecent` the queue
is sorted and the last or the second-to-last move is drawn, otherwise any move is drawn. -/
def _SampleFromMoveQueue (S : Strategy State RMap Item) (me : SimpleAgent RMap X)
    (state : State) (avoidRecent : Bool) : Move × SimpleAgent RMap X :=
  if me.moveQueue.count = 0 then (Move.IDLE, me)
  else
    let a := S.agents state me.id
    if avoidRecent then
      let me1 := { me with
        moveQueue := SortDirections S.DesiredPosition me.moveQueue me.recentPositions a.x a.y }
      let d := me1.draw
      (d.2.moveQueue.get (d.2.moveQueue.count - 1 - d.1 % min 2 d.2.moveQueue.count), d.2)
    else
      let d := me.draw
      (d.2.moveQueue.get (d.1 % d.2.moveQueue.count), d.2)

/-- The function `_MoveSafeOneSpace`: the safe directions are added to the queue, then a move
is sampled. -/
def _MoveSafeOneSpace (S : Strategy State RMap Item) (me : SimpleAgent RMap X)
    (state : State) (avoidRecent : Bool) : Move × SimpleAgent RMap X :=
  let a := S.agents state me.id
  _SampleFromMoveQueue S { me with moveQueue := S.SafeDirections state me.moveQueue a.x a.y }
    state avoidRecent

/-- The function `_Decide`: escape danger first, then bombs and enemies, then power-ups, and a
safe single step if none of that gave a move. -/
def _Decide (S : Strategy State RMap Item) (me : SimpleAgent RMap X) (state : State) :
    Move × SimpleAgent RMap X :=
  let a := S.agents state me.id
  let me1 := { me with r := S.FillRMap state me.r me.id }
  let me2 := { me1 with danger := S.IsInDanger state me1.id }
  if me2.danger > 0 then
    let me3 := { me2 with
      moveQueue := S.MoveTowardsSafePlace state me2.r me2.danger me2.moveQueue me2.danger }
    if me3.moveQueue.count > 0 then _SampleFromMoveQueue S me3 state true
    else if _HasRPLoop me3 then (Move.cast (1 + me3.draw.1 % 4), me3.draw.2)
    else (Move.IDLE, me3)
  else if a.bombCount < a.maxBombCount then
    if S.IsAdjacentEnemy state me2.id 2 then (Move.BOMB, me2)
    else if S.IsAdjacentItem state me2.id 1 S.WOOD then (Move.BOMB, me2)
    else if _HasRPLoop me2 then _MoveSafeOneSpace S me2 state false
    else
      let me3 := { me2 with moveQueue := S.MoveTowardsEnemy state me2.r 7 me2.moveQueue }
      if me3.moveQueue.count > 0 then _SampleFromMoveQueue S me3 state false
      else _MoveSafeOneSpace S me3 state true
  else
    let me3 := { me2 with moveQueue := S.MoveTowardsPowerup state me2.r 2 me2.moveQueue }
    if me3.moveQueue.count > 0 then _SampleFromMoveQueue S me3 state false
    else _MoveSafeOneSpace S me3 state true

/-- SimpleAgent::act: decides, then records the intended position in the history, dropping the
oldest entry first when no capacity remains. -/
def SimpleAgent.act (S : Strategy State RMap Item) (me : SimpleAgent RMap X) (state : State) :
    Move × SimpleAgent RMap X :=
  let a := S.agents state me.id
  let d := _Decide S me state
  let m := d.1
  let p := S.DesiredPosition a.x a.y m
  let rp := if d.2.recentPositions.RemainingCapacity = 0 then d.2.recentPositions.PopElem.2
    else d.2.recentPositions
  (m, { d.2 with recentPositions := rp.AddElem p })

/-! ## Concrete scenes -/

/-- A board snapshot reduced to what the policy asks of it: the agent record, the danger value
of the agent's cell, whether an enemy or wood is near, and the moves each movement primitive
appends to the queue it is given. -/
structure Scene where
  agent : AgentInfo
  danger : Int
  enemyNear : Bool
  woodNear : Bool
  safePlace : List Move
  enemy : List Move
  powerup : List Move
  safeDirs : List Move

/-- Appends the moves to the queue, one `AddElem` each. -/
def appendMoves (q : FixedQueue Move MOVE_COUNT) (ms : List Move) : FixedQueue Move MOVE_COUNT :=
  ms.foldl FixedQueue.AddElem q

/-- The strategy functions read off a scene; every movement primitive only appends. -/
def sceneStrategy : Strategy Scene Unit Unit where
  WOOD := ()
  agents := fun s _ => s.agent
  DesiredPosition := bboard.util.DesiredPosition
  FillRMap := fun _ r _ => r
  IsInDanger := fun s _ => s.danger
  IsAdjacentEnemy := fun s _ _ => s.enemyNear
  IsAdjacentItem := fun s _ _ _ => s.woodNear
  MoveTowardsSafePlace := fun s _ _ q _ => appendMoves q s.safePlace
  MoveTowardsPowerup := fun s _ _ q => appendMoves q s.powerup
  MoveTowardsEnemy := fun s _ _ q => appendMoves q s.enemy
  SafeDirections := fun s q _ _ => appendMoves q s.safeDirs

/-- An agent with the given candidate queue and history; the generator hands out `v` forever. -/
def agentWith {X : Nat} (q : FixedQueue Move MOVE_COUNT) (rp : FixedQueue Position X) (v : Nat) :
    SimpleAgent Unit X :=
  { id := 0, rng := fun _ => v, danger := 0, r := (), moveQueue := q, recentPositions := rp }

end agents

namespace bboard.strategy

/-! ## List view of the sorting loops

The following functions describe, on the retained window of the candidate queue, what the two
loops of `SortDirections` do.  They are proof devices: `SortDirections.toList_eq` shows that the
ring-buffer code above computes exactly this. -/

/-- List view of the outer loop.  `u` holds the moves not taken out so far (in queue order), `m`
the moves taken out and appended again; the history entries are visited in the order given. -/
def visitList (dest : Move → Position) :
    List Position → List Move → List Move → List Move × List Move
  | [], u, m => (u, m)
  | h :: hs, u, m =>
    match u.find? (fun c => decide (dest c = h)) with
    | some c => visitList dest hs (u.eraseP (fun c => decide (dest c = h))) (m ++ [c])
    | none => visitList dest hs u m

/-- List view of `SortDirections`: the moves taken out (first for the newest history entry),
followed by the moves left in place. -/
def sortedList (dest : Move → Position) (history : List Position) (moves : List Move) :
    List Move :=
  (visitList dest history.reverse moves []).2 ++ (visitList dest history.reverse moves []).1

end bboard.strategy

namespace bboard.strategy

/-! ## Properties and concrete inputs used in the statements -/

/-- The ranking property of a queue against a history window: every candidate whose destination
equals no entry of the history sits at a strictly greater queue index than every candidate whose
destination equals some entry of it. -/
def UnvisitedLast (dest : Move → Position) (q : FixedQueue Move MOVE_COUNT)
    (history : List Position) : Prop :=
  ∀ i j, i < q.count → j < q.count →
    dest (q.get i) ∉ history → dest (q.get j) ∈ history → j < i

/-- A candidate queue holding exactly the given moves. -/
def queueOf (l : List Move) : FixedQueue Move MOVE_COUNT :=
  FixedQueue.ofList Move.IDLE l

/-- A history of capacity 4 holding exactly the given positions; the unused slots hold
`(0, 0)`. -/
def historyOf (l : List Position) : FixedQueue Position 4 :=
  FixedQueue.ofList ⟨0, 0⟩ l

end bboard.strategy

namespace agents

open bboard bboard.strategy

/-- An agent of history capacity 4 at the start of a second episode: the first episode
recorded (3, 3), (4, 4) and `third`, and ended with `reset`. -/
def secondEpisode (third : Position) : SimpleAgent Unit 4 :=
  SimpleAgent.reset (agentWith (queueOf []) (historyOf [⟨3, 3⟩, ⟨4, 4⟩, third]) 0)

/-- The agent `secondEpisode` after two recorded positions, (1, 1) and then (1, 2). -/
def secondEpisodeTwoTicks (third : Position) : SimpleAgent Unit 4 :=
  { secondEpisode third with
    recentPositions := ((secondEpisode third).recentPositions.AddElem ⟨1, 1⟩).AddElem ⟨1, 2⟩ }

/-- A scene for the offense branch: no danger, bomb capacity available (0 of 1 placed), no
enemy and no wood near; the enemy search finds nothing, the power-up search would add `UP`, and
the only safe neighbouring step is `DOWN`. -/
def powerupScene : Scene :=
  { agent := ⟨1, 1, 0, 1⟩, danger := 0, enemyNear := false, woodNear := false,
    safePlace := [], enemy := [], powerup := [Move.UP], safeDirs := [Move.DOWN] }

/-- A scene without bomb capacity (1 of 1 placed) and without danger in which the power-up
search adds `UP`. -/
def pickupScene : Scene :=
  { agent := ⟨1, 1, 1, 1⟩, danger := 0, enemyNear := false, woodNear := false,
    safePlace := [], enemy := [], powerup := [Move.UP], safeDirs := [] }

/-- A scene without bomb capacity and without danger in which no movement primitive adds a
candidate: the agent stands on (1, 0) with no power-up in reach and no safe neighbouring cell. -/
def enclosedScene : Scene :=
  { agent := ⟨1, 0, 1, 1⟩, danger := 0, enemyNear := false, woodNear := false,
    safePlace := [], enemy := [], powerup := [], safeDirs := [] }

/-- The reading of the priority order in which the power-up search is tried whenever the
offense branch yields no action: with danger 0, bomb capacity available, no enemy within
distance 2, no wood within distance 1, no oscillation and an enemy search that leaves the queue
empty, a power-up search that would add a candidate decides the move. -/
def PowerupAfterOffense {State RMap Item : Type} {X : Nat} (S : Strategy State RMap Item)
    (me : SimpleAgent RMap X) (state : State) : Prop :=
  S.IsInDanger state me.id = 0 →
  (S.agents state me.id).bombCount < (S.agents state me.id).maxBombCount →
  S.IsAdjacentEnemy state me.id 2 = false →
  S.IsAdjacentItem state me.id 1 S.WOOD = false →
  _HasRPLoop me = false →
  (S.MoveTowardsEnemy state (S.FillRMap state me.r me.id) 7 me.moveQueue).count = 0 →
  0 < (S.MoveTowardsPowerup state (S.FillRMap state me.r me.id) 2 me.moveQueue).count →
  (_Decide S me state).1
    ∈ (S.MoveTowardsPowerup state (S.FillRMap state me.r me.id) 2 me.moveQueue).toList

/-- The ranked queue: the candidate queue of the agent after
`SortDirections(me.moveQueue, me.recentPositions, a.x, a.y)`, as `_SampleFromMoveQueue` computes
it when `avoidRecent` is set. -/
def rankedQueue {State RMap Item : Type} {X : Nat} (S : Strategy State RMap Item)
    (me : SimpleAgent RMap X) (state : State) : FixedQueue Move MOVE_COUNT :=
  SortDirections S.DesiredPosition me.moveQueue me.recentPositions
    (S.agents state me.id).x (S.agents state me.id).y

/-- A movement primitive, seen as a function of the queue it is given, enqueues only
directional moves: every move of the queue it hands back was in the queue it received or is one
of `UP`, `DOWN`, `LEFT`, `RIGHT`. -/
def EnqueuesDirectional (f : FixedQueue Move MOVE_COUNT → FixedQueue Move MOVE_COUNT) : Prop :=
  ∀ q c, c ∈ (f q).toList →
    c ∈ q.toList ∨ c ∈ [Move.UP, Move.DOWN, Move.LEFT, Move.RIGHT]

/-- A scene with danger in which the safe-place search adds `LEFT` and `DOWN`. -/
def dangerScene : Scene :=
  { agent := ⟨1, 1, 0, 1⟩, danger := 2, enemyNear := true, woodNear := true,
    safePlace := [Move.LEFT, Move.DOWN], enemy := [Move.UP], powerup := [],
    safeDirs := [Move.RIGHT] }

/-- A scene without danger, with bomb capacity available and an enemy within reach. -/
def offenseScene : Scene :=
  { agent := ⟨1, 1, 0, 1⟩, danger := 0, enemyNear := true, woodNear := false,
    safePlace := [], enemy := [Move.UP], powerup := [], safeDirs := [Move.RIGHT] }

/-- The candidate queue two calls of `SafeDirections` leave behind on an empty queue when the
first adds `RIGHT`, `LEFT`, `DOWN`, `UP` and the second `RIGHT`, `LEFT`, `DOWN`: seven `AddElem`
on a ring of six slots, so that count is 7 and the seventh move sits in the oldest slot. -/
def overfullQueue : FixedQueue Move MOVE_COUNT :=
  appendMoves (appendMoves (queueOf []) [Move.RIGHT, Move.LEFT, Move.DOWN, Move.UP])
    [Move.RIGHT, Move.LEFT, Move.DOWN]

end agents

namespace bboard.strategy

/-- The front-of-queue property of a sorted queue: if the history is not empty and some
candidate of the queue `q` has the newest history entry as its destination, then the candidate
at index 0 of `sorted` has that destination. -/
def NewestFirst {X : Nat} (dest : Move → Position) (q : FixedQueue Move MOVE_COUNT)
    (p : FixedQueue Position X) (sorted : FixedQueue Move MOVE_COUNT) : Prop :=
  0 < p.count →
  (∃ i, i < q.count ∧ dest (q.get i) = p.get (p.count - 1)) →
  dest (sorted.get 0) = p.get (p.count - 1)

/-- The history covers the visited candidates: no position of the history is the destination
of more candidates than the history holds entries equal to it.  This is so in particular when
the candidates whose destination is in the history have pairwise different destinations;
candidates whose destination is not in the history may repeat freely. -/
def VisitedCovered (dest : Move → Position) (moves : List Move) (history : List Position) :
    Prop :=
  ∀ d, d ∈ history → (moves.map dest).count d ≤ history.count d

end bboard.strategy

/-! ## Ring-buffer lemmas -/

namespace bboard.FixedQueue

variable {T : Type} {TSize : Nat}

theorem slot_inj {idx a b : Nat} (ha : a < TSize) (hb : b < TSize)
    (h : (idx + a) % TSize = (idx + b) % TSize) : a = b := by
  have h1 : idx + a ≡ idx + b [MOD TSize] := h
  have h2 : a ≡ b [MOD TSize] := Nat.ModEq.add_left_cancel' idx h1
  exact Nat.ModEq.eq_of_lt_of_lt h2 ha hb

theorem slot_pred {idx i : Nat} (hT : 0 < TSize) (hi : 1 ≤ i) :
    (if (idx + i) % TSize = 0 then TSize - 1 else (idx + i) % TSize - 1)
      = (idx + (i - 1)) % TSize := by
  obtain ⟨k, rfl⟩ : ∃ k, i = k + 1 := ⟨i - 1, by omega⟩
  simp only [Nat.add_sub_cancel]
  have hr : (idx + k) % TSize < TSize := Nat.mod_lt _ hT
  have hsucc : (idx + (k + 1)) % TSize = ((idx + k) % TSize + 1) % TSize := by
    rw [← Nat.add_assoc, Nat.add_mod (idx + k) 1 TSize]
    by_cases h1 : TSize = 1
    · subst h1; simp [Nat.mod_one]
    · rw [Nat.mod_eq_of_lt (show 1 < TSize by omega)]
  rw [hsucc]
  by_cases hlt : (idx + k) % TSize + 1 < TSize
  · rw [Nat.mod_eq_of_lt hlt]; simp
  · have : (idx + k) % TSize + 1 = TSize := by omega
    rw [this, Nat.mod_self]; simp; omega

theorem shift_apply (hT : 0 < TSize) (idx s : Nat) (hs : 1 ≤ s) (hsT : s ≤ TSize)
    (mem : Nat → T) (k : Nat) (hk : k < TSize) :
    RemoveAt.shift TSize idx mem s ((idx + k) % TSize)
      = if k = s - 1 then mem ((idx + s) % TSize) else mem ((idx + k) % TSize) := by
  unfold RemoveAt.shift
  simp only [slot_pred hT hs, Function.update_apply]
  by_cases hks : k = s - 1
  · subst hks; simp
  · have hne : (idx + k) % TSize ≠ (idx + (s - 1)) % TSize := fun h =>
      hks (slot_inj hk (by omega) h)
    simp [hne, hks]

theorem shift_foldl (hT : 0 < TSize) (idx : Nat) :
    ∀ (n s : Nat) (mem : Nat → T), 1 ≤ s → s + n ≤ TSize → ∀ k, k < TSize →
      ((List.range' s n).foldl (RemoveAt.shift TSize idx) mem) ((idx + k) % TSize)
        = if s ≤ k + 1 ∧ k + 1 < s + n then mem ((idx + (k + 1)) % TSize)
          else mem ((idx + k) % TSize) := by
  intro n
  induction n with
  | zero =>
    intro s mem _ _ k _
    have : ¬ (s ≤ k + 1 ∧ k + 1 < s + 0) := by omega
    rw [if_neg this]
    rfl
  | succ n ih =>
    intro s mem hs hsn k hk
    rw [List.range'_succ, List.foldl_cons, ih (s + 1) _ (by omega) (by omega) k hk]
    by_cases h1 : s + 1 ≤ k + 1 ∧ k + 1 < s + 1 + n
    · have h2 : s ≤ k + 1 ∧ k + 1 < s + (n + 1) := by omega
      rw [if_pos h1, if_pos h2, shift_apply hT idx s hs (by omega) mem (k + 1) (by omega)]
      have : ¬ (k + 1 = s - 1) := by omega
      simp [this]
    · rw [if_neg h1, shift_apply hT idx s hs (by omega) mem k hk]
      by_cases h3 : k = s - 1
      · have h2 : s ≤ k + 1 ∧ k + 1 < s + (n + 1) := by omega
        have e : k + 1 = s := by omega
        rw [if_pos h3, if_pos h2, e]
      · have h2 : ¬ (s ≤ k + 1 ∧ k + 1 < s + (n + 1)) := by omega
        rw [if_neg h3, if_neg h2]

theorem get_RemoveAt (q : FixedQueue T TSize) (r k : Nat) (hr : r < q.count)
    (hc : q.count ≤ TSize) (hk : k < TSize) :
    (q.RemoveAt r).get k = if r ≤ k ∧ k + 1 < q.count then q.get (k + 1) else q.get k := by
  have hT : 0 < TSize := by omega
  unfold RemoveAt get
  simp only
  rw [shift_foldl hT q.index _ _ _ (by omega) (by omega) k hk]
  have e : r + 1 + (q.count - (r + 1)) = q.count := by omega
  rw [e]
  by_cases h : r ≤ k ∧ k + 1 < q.count
  · rw [if_pos h, if_pos (by omega)]
  · rw [if_neg h, if_neg (by omega)]

theorem count_RemoveAt (q : FixedQueue T TSize) (r : Nat) : (q.RemoveAt r).count = q.count - 1 := rfl

theorem count_AddElem (q : FixedQueue T TSize) (e : T) : (q.AddElem e).count = q.count + 1 := rfl

theorem get_AddElem (q : FixedQueue T TSize) (e : T) (k : Nat) (hc : q.count < TSize)
    (hk : k < TSize) :
    (q.AddElem e).get k = if k = q.count then e else q.get k := by
  unfold AddElem get
  simp only [Function.update_apply]
  by_cases h : k = q.count
  · subst h; simp
  · have hne : (q.index + k) % TSize ≠ (q.index + q.count) % TSize := fun h' =>
      h (slot_inj hk hc h')
    simp [hne, h]

theorem length_toList (q : FixedQueue T TSize) : q.toList.length = q.count := by
  simp [toList]

theorem getElem_toList (q : FixedQueue T TSize) (k : Nat) (hk : k < q.toList.length) :
    q.toList[k] = q.get k := by
  simp [toList]

theorem toList_RemoveAt (q : FixedQueue T TSize) (r : Nat) (hr : r < q.count)
    (hc : q.count ≤ TSize) : (q.RemoveAt r).toList = q.toList.eraseIdx r := by
  apply List.ext_getElem
  · simp [length_toList, count_RemoveAt, List.length_eraseIdx, hr]
  · intro k h1 h2
    rw [getElem_toList, List.getElem_eraseIdx]
    have hk : k < q.count - 1 := by simpa [length_toList, count_RemoveAt] using h1
    rw [get_RemoveAt q r k hr hc (by omega)]
    by_cases h : k < r
    · have h3 : ¬ (r ≤ k ∧ k + 1 < q.count) := by omega
      simp [h, h3, getElem_toList]
    · have h3 : r ≤ k ∧ k + 1 < q.count := by omega
      simp [h, h3, getElem_toList]

theorem toList_AddElem (q : FixedQueue T TSize) (e : T) (hc : q.count < TSize) :
    (q.AddElem e).toList = q.toList ++ [e] := by
  apply List.ext_getElem
  · simp [length_toList, count_AddElem]
  · intro k h1 h2
    have hk : k < q.count + 1 := by simpa [length_toList, count_AddElem] using h1
    rw [getElem_toList, get_AddElem q e k hc (by omega)]
    by_cases h : k = q.count
    · subst h; simp [length_toList]
    · rw [if_neg h, List.getElem_append_left (by rw [length_toList]; omega), getElem_toList]

theorem get_PopElem (q : FixedQueue T TSize) (k : Nat) :
    q.PopElem.2.get k = q.get (k + 1) := by
  unfold PopElem get
  simp only
  congr 1
  rw [Nat.add_mod, Nat.mod_mod, ← Nat.add_mod]
  congr 1
  omega

theorem toList_PopElem (q : FixedQueue T TSize) :
    q.PopElem.2.toList = q.toList.tail := by
  apply List.ext_getElem
  · simp [length_toList, PopElem]
  · intro k h1 h2
    rw [getElem_toList, get_PopElem q k]
    simp [toList]

theorem fst_PopElem (q : FixedQueue T TSize) : q.PopElem.1 = q.get 0 := rfl

end bboard.FixedQueue

/-! ## The sorting loops compute the list view -/

namespace bboard.strategy

open bboard.FixedQueue

theorem first_match {α : Type} (pred : α → Bool) :
    ∀ (u : List α) (i : Nat) (hi : i < u.length), pred u[i] = true →
      (∀ k (hk : k < i), pred (u[k]) = false) →
      u.find? pred = some u[i] ∧ u.eraseP pred = u.eraseIdx i := by
  intro u
  induction u with
  | nil => intro i hi; simp at hi
  | cons a u ih =>
    intro i hi hp hfirst
    cases i with
    | zero =>
      simp only [List.getElem_cons_zero] at hp
      simp [hp]
    | succ i =>
      have h0 : pred a = false := by simpa using hfirst 0 (by omega)
      have hi' : i < u.length := by simpa using hi
      have := ih i hi' (by simpa using hp)
        (fun k hk => by simpa using hfirst (k + 1) (by omega))
      simp [h0, this.1, this.2]

theorem eq_head_cons_tail {α : Type} :
    ∀ (l : List α) (h : 0 < l.length), l = l[0] :: l.tail
  | [], h => by simp at h
  | _ :: _, _ => by simp

theorem visitList_nil (dest : Move → Position) :
    ∀ (hs : List Position) (m : List Move), visitList dest hs [] m = ([], m) := by
  intro hs
  induction hs with
  | nil => intro m; rfl
  | cons h hs ih => intro m; simp [visitList, ih]

theorem rotate_toList :
    ∀ (n : Nat) (q : FixedQueue Move MOVE_COUNT), n ≤ q.count → q.count ≤ MOVE_COUNT →
      (SortDirections.rotate n q).count = q.count ∧
      (SortDirections.rotate n q).toList = q.toList.rotate n := by
  intro n
  induction n with
  | zero => intro q _ _; simp [SortDirections.rotate]
  | succ n ih =>
    intro q hn hc
    have hcnt : (q.PopElem.2.AddElem q.PopElem.1).count = q.count := by
      simp only [count_AddElem, PopElem]; omega
    have hl : (q.PopElem.2.AddElem q.PopElem.1).toList = q.toList.tail ++ [q.get 0] := by
      rw [toList_AddElem _ _ (by simp only [PopElem]; omega), toList_PopElem, fst_PopElem]
    have hq : q.toList = q.get 0 :: q.toList.tail := by
      have hlen : 0 < q.toList.length := by rw [length_toList]; omega
      rw [← getElem_toList q 0 hlen]
      exact eq_head_cons_tail q.toList hlen
    have := ih (q.PopElem.2.AddElem q.PopElem.1) (by omega) (by omega)
    simp only [SortDirections.rotate]
    refine ⟨by rw [this.1, hcnt], ?_⟩
    rw [this.2, hl]
    conv_rhs => rw [hq, List.rotate_cons_succ]

theorem visit_toList {X : Nat} (dp : Int → Int → Move → Position) (p : FixedQueue Position X)
    (x y : Int) (moves : Nat) (hm : moves ≤ MOVE_COUNT) :
    ∀ (j : Nat) (q : FixedQueue Move MOVE_COUNT) (u m : List Move),
      q.count = moves → q.toList = u ++ m →
      (SortDirections.visit dp p x y moves j (q, m.length)).1.count = moves ∧
      (SortDirections.visit dp p x y moves j (q, m.length)).1.toList
        = (visitList (dp x y) ((List.range j).map p.get).reverse u m).1
          ++ (visitList (dp x y) ((List.range j).map p.get).reverse u m).2 ∧
      (SortDirections.visit dp p x y moves j (q, m.length)).2
        = (visitList (dp x y) ((List.range j).map p.get).reverse u m).2.length := by
  intro j
  induction j with
  | zero => intro q u m hc hl; simp [SortDirections.visit, visitList, hc, hl]
  | succ j ih =>
    intro q u m hc hl
    have hlen : u.length + m.length = moves := by
      have := congrArg List.length hl
      rw [length_toList, List.length_append] at this
      omega
    have hget : ∀ k (hk : k < u.length), q.get k = u[k] := by
      intro k hk
      have h1 : k < q.toList.length := by rw [length_toList]; omega
      rw [← getElem_toList q k h1]
      simp [hl, List.getElem_append_left hk]
    have hhist : ((List.range (j + 1)).map p.get).reverse
        = p.get j :: ((List.range j).map p.get).reverse := by
      simp [List.range_succ]
    rw [hhist]
    simp only [SortDirections.visit, visitList]
    cases hs : SortDirections.search dp q (p.get j) x y (moves - m.length) with
    | none =>
      have hnone : u.find? (fun c => decide (dp x y c = p.get j)) = none := by
        rw [List.find?_eq_none]
        intro c hcmem
        obtain ⟨k, hk, rfl⟩ := List.getElem_of_mem hcmem
        unfold SortDirections.search at hs
        rw [List.find?_range_eq_none] at hs
        have := hs k (by omega)
        simpa [hget k hk] using this
      simp only [hnone]
      exact ih q u m hc hl
    | some i =>
      unfold SortDirections.search at hs
      rw [List.find?_range_eq_some] at hs
      obtain ⟨hpi, hir, hfirst⟩ := hs
      have hi : i < u.length := by
        simp at hir
        omega
      have hfm := first_match (fun c => decide (dp x y c = p.get j)) u i hi
        (by simpa [hget i hi] using hpi)
        (fun k hk => by
          have := hfirst k hk
          simpa [hget k (by omega)] using this)
      simp only [hfm.1, hfm.2]
      have hq1c : ((q.RemoveAt i).AddElem (q.get i)).count = moves := by
        simp only [count_AddElem, count_RemoveAt]
        omega
      have hq1l : ((q.RemoveAt i).AddElem (q.get i)).toList
          = u.eraseIdx i ++ (m ++ [u[i]]) := by
        rw [toList_AddElem _ _ (by rw [count_RemoveAt]; omega),
          toList_RemoveAt q i (by omega) (by omega), hl,
          List.eraseIdx_append_of_lt_length hi, hget i hi, List.append_assoc]
      have hml : (m ++ [u[i]]).length = m.length + 1 := by simp
      by_cases hbrk : m.length + 1 = moves
      · have hu : u.eraseIdx i = [] := by
          apply List.eq_nil_of_length_eq_zero
          rw [List.length_eraseIdx]
          simp only [hi, if_true]
          omega
        simp only [if_pos hbrk, hu, visitList_nil]
        refine ⟨hq1c, ?_, ?_⟩
        · rw [hq1l, hu]
        · simp
      · simp only [if_neg hbrk]
        have := ih _ (u.eraseIdx i) (m ++ [u[i]]) hq1c hq1l
        rw [hml] at this
        exact this

theorem SortDirections.toList_eq {X : Nat} (dp : Int → Int → Move → Position)
    (q : FixedQueue Move MOVE_COUNT) (p : FixedQueue Position X) (x y : Int)
    (hc : q.count ≤ MOVE_COUNT) :
    (SortDirections dp q p x y).count = q.count ∧
    (SortDirections dp q p x y).toList = sortedList (dp x y) p.toList q.toList := by
  have hv := visit_toList dp p x y q.count hc p.count q q.toList [] rfl (by simp)
  simp only [List.length_nil] at hv
  obtain ⟨h1, h2, h3⟩ := hv
  have hlen := congrArg List.length h2
  rw [length_toList, h1, List.length_append] at hlen
  have hrot := rotate_toList (q.count - (SortDirections.visit dp p x y q.count p.count (q, 0)).2)
    (SortDirections.visit dp p x y q.count p.count (q, 0)).1 (by rw [h1]; omega) (by rw [h1]; exact hc)
  unfold SortDirections sortedList
  simp only
  refine ⟨by rw [hrot.1, h1], ?_⟩
  rw [hrot.2, h2, h3]
  have e : q.count - (visitList (dp x y) (List.map p.get (List.range p.count)).reverse q.toList []).2.length
      = (visitList (dp x y) (List.map p.get (List.range p.count)).reverse q.toList []).1.length := by
    omega
  rw [e, List.rotate_append_length_eq]
  rfl

theorem visitList_moved (dest : Move → Position) :
    ∀ (hs : List Position) (u m : List Move) (c : Move),
      c ∈ (visitList dest hs u m).2 → c ∈ m ∨ dest c ∈ hs := by
  intro hs
  induction hs with
  | nil => intro u m c hc; exact Or.inl hc
  | cons h hs ih =>
    intro u m c hc
    simp only [visitList] at hc
    cases hf : u.find? (fun c => decide (dest c = h)) with
    | none =>
      rw [hf] at hc
      rcases ih u m c hc with h1 | h1
      · exact Or.inl h1
      · exact Or.inr (List.mem_cons_of_mem _ h1)
    | some c0 =>
      rw [hf] at hc
      have hc0 : dest c0 = h := by simpa using List.find?_some hf
      rcases ih _ _ c hc with h1 | h1
      · rcases List.mem_append.1 h1 with h2 | h2
        · exact Or.inl h2
        · have : c = c0 := by simpa using h2
          subst this
          exact Or.inr (by rw [hc0]; exact List.mem_cons_self _ _)
      · exact Or.inr (List.mem_cons_of_mem _ h1)

theorem visitList_unmoved (dest : Move → Position) :
    ∀ (hs : List Position) (u m : List Move) (c : Move), (u.map dest).Nodup →
      c ∈ (visitList dest hs u m).1 → c ∈ u ∧ dest c ∉ hs := by
  intro hs
  induction hs with
  | nil => intro u m c _ hc; exact ⟨hc, by simp⟩
  | cons h hs ih =>
    intro u m c hnd hc
    simp only [visitList] at hc
    cases hf : u.find? (fun c => decide (dest c = h)) with
    | none =>
      rw [hf] at hc
      obtain ⟨h1, h2⟩ := ih u m c hnd hc
      refine ⟨h1, ?_⟩
      rw [List.find?_eq_none] at hf
      have := hf c h1
      simp only [List.mem_cons, not_or]
      exact ⟨by simpa using this, h2⟩
    | some c0 =>
      rw [hf] at hc
      have hc0 : dest c0 = h := by simpa using List.find?_some hf
      have hmem0 : c0 ∈ u := List.mem_of_find?_eq_some hf
      obtain ⟨a, l1, l2, hl1, hpa, hu, he⟩ :=
        @List.exists_of_eraseP _ (fun c => decide (dest c = h)) _ _ hmem0 (by simpa using hc0)
      have hnd' : ((u.eraseP (fun c => decide (dest c = h))).map dest).Nodup :=
        (List.eraseP_sublist u).map dest |>.nodup hnd
      obtain ⟨h1, h2⟩ := ih _ _ c hnd' hc
      refine ⟨List.mem_of_mem_eraseP h1, ?_⟩
      simp only [List.mem_cons, not_or]
      refine ⟨?_, h2⟩
      intro hch
      rw [he] at h1
      have ha : dest a = h := by simpa using hpa
      rw [hu, List.map_append, List.map_cons] at hnd
      rcases List.mem_append.1 h1 with h3 | h3
      · exact hl1 c h3 (by simpa using hch)
      · have hmid := (List.nodup_append.1 hnd).2.1
        rw [List.nodup_cons] at hmid
        exact hmid.1 (by rw [ha, ← hch]; exact List.mem_map_of_mem dest h3)

theorem count_map_eraseP (dest : Move → Position) (h d : Position) :
    ∀ (u : List Move) (c0 : Move), u.find? (fun c => decide (dest c = h)) = some c0 →
      ((u.eraseP (fun c => decide (dest c = h))).map dest).count d
        + (if h = d then 1 else 0) = (u.map dest).count d := by
  intro u
  induction u with
  | nil => intro c0 hf; simp at hf
  | cons a u ih =>
    intro c0 hf
    by_cases ha : dest a = h
    · rw [List.eraseP_cons_of_pos (by simpa using ha), List.map_cons, List.count_cons, ha]
      simp
    · rw [List.find?_cons_of_neg _ (by simpa using ha)] at hf
      rw [List.eraseP_cons_of_neg (by simpa using ha), List.map_cons, List.map_cons,
        List.count_cons, List.count_cons, ← ih c0 hf]
      omega

theorem visitList_unmoved_count (dest : Move → Position) :
    ∀ (hs : List Position) (u m : List Move) (d : Position),
      ((visitList dest hs u m).1.map dest).count d = (u.map dest).count d - hs.count d := by
  intro hs
  induction hs with
  | nil => intro u m d; simp [visitList]
  | cons h hs ih =>
    intro u m d
    simp only [visitList]
    cases hf : u.find? (fun c => decide (dest c = h)) with
    | none =>
      simp only []
      rw [ih, List.count_cons]
      by_cases hd : h = d
      · have hz : (u.map dest).count d = 0 := by
          rw [List.count_eq_zero]
          intro hmem
          obtain ⟨c, hc, hcd⟩ := List.mem_map.1 hmem
          rw [List.find?_eq_none] at hf
          exact hf c hc (by simpa [hd] using hcd)
        rw [hz]
        omega
      · simp [hd]
    | some c0 =>
      simp only []
      rw [ih, List.count_cons]
      have := count_map_eraseP dest h d u c0 hf
      by_cases hd : h = d
      · simp only [hd, if_true, beq_self_eq_true] at this ⊢
        omega
      · rw [if_neg hd, Nat.add_zero] at this
        simp [hd, this]

theorem visitList_unmoved_of_covered (dest : Move → Position) (hs : List Position)
    (u m : List Move) (hcov : ∀ d, d ∈ hs → (u.map dest).count d ≤ hs.count d) (c : Move)
    (hc : c ∈ (visitList dest hs u m).1) : dest c ∉ hs := by
  intro hmem
  have h0 := visitList_unmoved_count dest hs u m (dest c)
  have h1 := hcov _ hmem
  have h2 : 0 < ((visitList dest hs u m).1.map dest).count (dest c) :=
    List.count_pos_iff.2 (List.mem_map_of_mem dest hc)
  omega

theorem unmoved_novel_of_covered (dest : Move → Position) (history : List Position)
    (moves : List Move) (hcov : VisitedCovered dest moves history) (c : Move)
    (hc : c ∈ (visitList dest history.reverse moves []).1) : dest c ∉ history := by
  intro hmem
  refine visitList_unmoved_of_covered dest history.reverse moves [] ?_ c hc
    (List.mem_reverse.2 hmem)
  intro d hd
  rw [List.count_reverse]
  exact hcov d (List.mem_reverse.1 hd)

theorem SortDirections.get_eq {X : Nat} (dp : Int → Int → Move → Position)
    (q : FixedQueue Move MOVE_COUNT) (p : FixedQueue Position X) (x y : Int)
    (hc : q.count ≤ MOVE_COUNT) (k : Nat) (hk : k < q.count) :
    (SortDirections dp q p x y).get k
      = (sortedList (dp x y) p.toList q.toList).getD k Move.IDLE := by
  obtain ⟨hcnt, hl⟩ := SortDirections.toList_eq dp q p x y hc
  have hk1 : k < (SortDirections dp q p x y).toList.length := by
    rw [length_toList, hcnt]
    exact hk
  rw [← getElem_toList _ k hk1, ← hl, List.getD_eq_getElem _ _ hk1]

theorem sortedList_length (dest : Move → Position) (history : List Position)
    (moves : List Move) :
    (visitList dest history.reverse moves []).2.length
      + (visitList dest history.reverse moves []).1.length = (sortedList dest history moves).length := by
  rw [sortedList, List.length_append]

/-- C1 (failing input): with the queue UP, LEFT, UP at (1, 1) and the history holding only
(1, 0), the destination of UP, `SortDirections` takes only the first UP out of the queue and
leaves UP, LEFT, UP: LEFT, whose destination is not in the history, sits at index 1, before the
second UP at index 2, whose destination is in it.  The unvisited move is not last. -/
theorem SortDirections_duplicate_destination_not_last :
    ¬ UnvisitedLast (util.DesiredPosition 1 1)
        (SortDirections util.DesiredPosition (queueOf [Move.UP, Move.LEFT, Move.UP])
          (historyOf [⟨1, 0⟩]) 1 1)
        (historyOf [⟨1, 0⟩]).toList := by
  intro h
  have := h 1 2 (by decide) (by decide) (by decide) (by decide)
  omega

/-- Where the ranking holds: for a candidate queue within its capacity whose visited candidates
are covered by the history (`VisitedCovered`), after `SortDirections` every candidate whose
destination equals no entry of the history sits at a strictly greater queue index than every
candidate whose destination equals some entry of the history. -/
theorem SortDirections_unvisited_last {X : Nat} (dp : Int → Int → Move → Position)
    (q : FixedQueue Move MOVE_COUNT) (p : FixedQueue Position X) (x y : Int)
    (hc : q.count ≤ MOVE_COUNT) (hcov : VisitedCovered (dp x y) q.toList p.toList) :
    UnvisitedLast (dp x y) (SortDirections dp q p x y) p.toList := by
  obtain ⟨hcnt, hl⟩ := SortDirections.toList_eq dp q p x y hc
  intro i j hi hj hni hin
  have hlen := sortedList_length (dp x y) p.toList q.toList
  rw [← hl, length_toList] at hlen
  rw [hcnt] at hi hj
  have hgi := SortDirections.get_eq dp q p x y hc
  by_contra hji
  unfold sortedList at hgi
  by_cases hjm : j < (visitList (dp x y) p.toList.reverse q.toList []).2.length
  · -- then `i` also lies in the moved block, so its destination is in the history
    have him : i < (visitList (dp x y) p.toList.reverse q.toList []).2.length := by omega
    have hmem : (SortDirections dp q p x y).get i
        ∈ (visitList (dp x y) p.toList.reverse q.toList []).2 := by
      rw [hgi i hi, List.getD_append _ _ _ _ him, List.getD_eq_getElem _ _ him]
      exact List.getElem_mem _
    rcases visitList_moved (dp x y) _ _ _ _ hmem with h1 | h1
    · simp at h1
    · exact hni (List.mem_reverse.1 h1)
  · -- `j` lies in the block left in place, so its destination is not in the history
    have hmem : (SortDirections dp q p x y).get j
        ∈ (visitList (dp x y) p.toList.reverse q.toList []).1 := by
      rw [hgi j hj, List.getD_append_right _ _ _ _ (by omega),
        List.getD_eq_getElem _ _ (by omega)]
      exact List.getElem_mem _
    exact unmoved_novel_of_covered (dp x y) _ _ hcov _ hmem hin

theorem SortDirections_unvisited_last_witness :
    (queueOf [Move.UP, Move.LEFT, Move.LEFT, Move.DOWN]).count ≤ MOVE_COUNT ∧
    VisitedCovered (util.DesiredPosition 1 1)
      (queueOf [Move.UP, Move.LEFT, Move.LEFT, Move.DOWN]).toList
      (historyOf [⟨1, 2⟩, ⟨1, 0⟩]).toList ∧
    UnvisitedLast (util.DesiredPosition 1 1)
      (SortDirections util.DesiredPosition (queueOf [Move.UP, Move.LEFT, Move.LEFT, Move.DOWN])
        (historyOf [⟨1, 2⟩, ⟨1, 0⟩]) 1 1)
      (historyOf [⟨1, 2⟩, ⟨1, 0⟩]).toList :=
  ⟨by decide, by unfold VisitedCovered; decide,
    SortDirections_unvisited_last util.DesiredPosition
      (queueOf [Move.UP, Move.LEFT, Move.LEFT, Move.DOWN])
      (historyOf [⟨1, 2⟩, ⟨1, 0⟩]) 1 1 (by decide) (by unfold VisitedCovered; decide)⟩

theorem wrapInt_of_range (z : Int) (h : InIntRange z) : wrapInt z = z := by
  unfold InIntRange INT_MIN INT_MAX at h
  unfold wrapInt
  omega

/-- C2 (as stated, refuted): for the bomb at `(INT_MAX, 0)` with strength 1 the sum `x + s`
wraps around to `INT_MIN`, so the cell `(INT_MAX - 1, 0)`, which lies on the row of the bomb at
distance 1, is reported out of range. -/
theorem IsInBombRange_wraps_at_int_max :
    ¬ (IsInBombRange 2147483647 0 1 ⟨2147483646, 0⟩ = true ↔
        OnCross 2147483647 0 1 ⟨2147483646, 0⟩) := by
  intro h
  have hc : OnCross 2147483647 0 1 ⟨2147483646, 0⟩ := Or.inl ⟨rfl, by norm_num⟩
  have hf : IsInBombRange 2147483647 0 1 ⟨2147483646, 0⟩ = false := by decide
  rw [h.2 hc] at hf
  exact Bool.noConfusion hf

/-- C2 (amended): when the bounds `x - s`, `x + s`, `y - s`, `y + s` lie in the `int` range,
`IsInBombRange x y s pos` holds exactly when `pos` lies on the row of the bomb within distance
`s` or on its column within distance `s`.  In particular, for `s ≥ 0` the four cells at distance
`s` along the axes are in range and the four at distance `s + 1` are not, and a cell sharing
neither row nor column with the bomb is never in range; the bomb (1, 5) of strength 3 does not
reach (1, 1) and the bomb (1, 2) of strength 3 does. -/
theorem IsInBombRange_iff_cross (x y s : Int) (pos : Position)
    (hxl : InIntRange (x - s)) (hxu : InIntRange (x + s))
    (hyl : InIntRange (y - s)) (hyu : InIntRange (y + s)) :
    (IsInBombRange x y s pos = true ↔ OnCross x y s pos) ∧
    (0 ≤ s →
      (IsInBombRange x y s ⟨x + s, y⟩ = true ∧ IsInBombRange x y s ⟨x - s, y⟩ = true ∧
       IsInBombRange x y s ⟨x, y + s⟩ = true ∧ IsInBombRange x y s ⟨x, y - s⟩ = true) ∧
      (IsInBombRange x y s ⟨x + (s + 1), y⟩ = false ∧
       IsInBombRange x y s ⟨x - (s + 1), y⟩ = false ∧
       IsInBombRange x y s ⟨x, y + (s + 1)⟩ = false ∧
       IsInBombRange x y s ⟨x, y - (s + 1)⟩ = false)) ∧
    (pos.x ≠ x → pos.y ≠ y → IsInBombRange x y s pos = false) ∧
    IsInBombRange 1 5 3 ⟨1, 1⟩ = false ∧ IsInBombRange 1 2 3 ⟨1, 1⟩ = true := by
  have e : ∀ q : Position, IsInBombRange x y s q
      = ((decide (q.y = y) && (decide (x - s ≤ q.x) && decide (q.x ≤ x + s)))
        || (decide (q.x = x) && (decide (y - s ≤ q.y) && decide (q.y ≤ y + s)))) := by
    intro q
    simp only [IsInBombRange, wrapInt_of_range _ hxl, wrapInt_of_range _ hxu,
      wrapInt_of_range _ hyl, wrapInt_of_range _ hyu]
  refine ⟨?_, ?_, ?_, by decide, by decide⟩
  · simp only [e, OnCross, Bool.or_eq_true, Bool.and_eq_true, decide_eq_true_eq, abs_le]
    constructor
    · rintro (⟨h1, h2, h3⟩ | ⟨h1, h2, h3⟩)
      · exact Or.inl ⟨h1, by omega, by omega⟩
      · exact Or.inr ⟨h1, by omega, by omega⟩
    · rintro (⟨h1, h2, h3⟩ | ⟨h1, h2, h3⟩)
      · exact Or.inl ⟨h1, by omega, by omega⟩
      · exact Or.inr ⟨h1, by omega, by omega⟩
  · intro hs
    refine ⟨⟨?_, ?_, ?_, ?_⟩, ?_, ?_, ?_, ?_⟩ <;>
      simp [e] <;> omega
  · intro hx hy
    simp [e, hx, hy]

theorem IsInBombRange_iff_cross_witness :
    (InIntRange (1 - 3) ∧ InIntRange (1 + 3) ∧ InIntRange (5 - 3) ∧ InIntRange (5 + 3)) ∧
    (0 : Int) ≤ 3 ∧
    ((IsInBombRange 1 5 3 ⟨1 + 3, 5⟩ = true ∧ IsInBombRange 1 5 3 ⟨1 - 3, 5⟩ = true ∧
       IsInBombRange 1 5 3 ⟨1, 5 + 3⟩ = true ∧ IsInBombRange 1 5 3 ⟨1, 5 - 3⟩ = true) ∧
      (IsInBombRange 1 5 3 ⟨1 + (3 + 1), 5⟩ = false ∧
       IsInBombRange 1 5 3 ⟨1 - (3 + 1), 5⟩ = false ∧
       IsInBombRange 1 5 3 ⟨1, 5 + (3 + 1)⟩ = false ∧
       IsInBombRange 1 5 3 ⟨1, 5 - (3 + 1)⟩ = false)) ∧
    ((2 : Int) ≠ 1 ∧ (4 : Int) ≠ 5 ∧ IsInBombRange 1 5 3 ⟨2, 4⟩ = false) :=
  ⟨⟨by decide, by decide, by decide, by decide⟩, by decide,
    (IsInBombRange_iff_cross 1 5 3 ⟨2, 4⟩ (by decide) (by decide) (by decide)
      (by decide)).2.1 (by decide),
    by decide, by decide,
    (IsInBombRange_iff_cross 1 5 3 ⟨2, 4⟩ (by decide) (by decide) (by decide)
      (by decide)).2.2.1 (by decide) (by decide)⟩

end bboard.strategy

/-! ## The decision policy -/

namespace agents

open bboard bboard.strategy bboard.FixedQueue

variable {State RMap Item : Type} {X : Nat}

theorem getElem?_toList {T : Type} {TSize : Nat} (q : FixedQueue T TSize) (k : Nat)
    (hk : k < q.count) : q.toList[k]? = some (q.get k) := by
  simp [FixedQueue.toList, hk]

theorem cast_directional (v : Nat) :
    Move.cast (1 + v % 4) ∈ [Move.UP, Move.DOWN, Move.LEFT, Move.RIGHT] := by
  have h : v % 4 = 0 ∨ v % 4 = 1 ∨ v % 4 = 2 ∨ v % 4 = 3 := by omega
  rcases h with h | h | h | h <;> rw [h] <;> decide

/-- C3: when the danger value is 0, the agent has bomb capacity left and an enemy lies within
distance 2 or wood within distance 1, `_Decide` returns `BOMB`; the agent it leaves behind only
has its reachable map and danger value refreshed, so neither the history, nor the candidate
queue, nor the generator, nor any movement primitive is consulted. -/
theorem Decide_places_bomb (S : Strategy State RMap Item) (me : SimpleAgent RMap X)
    (state : State) (hd : S.IsInDanger state me.id = 0)
    (hb : (S.agents state me.id).bombCount < (S.agents state me.id).maxBombCount)
    (hadj : S.IsAdjacentEnemy state me.id 2 = true ∨
      S.IsAdjacentItem state me.id 1 S.WOOD = true) :
    (_Decide S me state).1 = Move.BOMB ∧
    (_Decide S me state).2 = { me with r := S.FillRMap state me.r me.id, danger := 0 } := by
  unfold _Decide
  simp only [hd, gt_iff_lt, lt_self_iff_false, if_false, hb, if_true]
  rcases hadj with h | h
  · simp [h]
  · by_cases he : S.IsAdjacentEnemy state me.id 2 = true
    · simp [he]
    · simp [he, h]

theorem Decide_places_bomb_witness :
    (_Decide sceneStrategy (agentWith (queueOf [Move.LEFT]) (historyOf [⟨1, 1⟩, ⟨1, 2⟩]) 7)
      { agent := ⟨1, 1, 0, 1⟩, danger := 0, enemyNear := false, woodNear := true,
        safePlace := [], enemy := [Move.UP], powerup := [], safeDirs := [Move.DOWN] }).1
      = Move.BOMB :=
  (Decide_places_bomb sceneStrategy
    (agentWith (queueOf [Move.LEFT]) (historyOf [⟨1, 1⟩, ⟨1, 2⟩]) 7)
    { agent := ⟨1, 1, 0, 1⟩, danger := 0, enemyNear := false, woodNear := true,
      safePlace := [], enemy := [Move.UP], powerup := [], safeDirs := [Move.DOWN] }
    rfl (by decide) (Or.inr rfl)).1

/-- C4: when the danger value `d` is positive and the candidate queue is empty after
`MoveTowardsSafePlace(state, rmap, d, queue, d)`, `_Decide` returns `IDLE` if `_HasRPLoop` reports
no oscillation, and otherwise the move numbered `1 + rng % 4`, which is one of `UP`, `DOWN`,
`LEFT`, `RIGHT` whatever the generator hands out. -/
theorem Decide_no_safe_place (S : Strategy State RMap Item) (me : SimpleAgent RMap X)
    (state : State) (hd : S.IsInDanger state me.id > 0)
    (hq : (S.MoveTowardsSafePlace state (S.FillRMap state me.r me.id)
      (S.IsInDanger state me.id) me.moveQueue (S.IsInDanger state me.id)).count = 0) :
    (_HasRPLoop me = false → (_Decide S me state).1 = Move.IDLE) ∧
    (_HasRPLoop me = true →
      (_Decide S me state).1 = Move.cast (1 + me.rng 0 % 4) ∧
      (_Decide S me state).1 ∈ [Move.UP, Move.DOWN, Move.LEFT, Move.RIGHT]) := by
  have hloop : ∀ (r : RMap) (d : Int) (q : FixedQueue Move MOVE_COUNT),
      _HasRPLoop { me with r := r, danger := d, moveQueue := q } = _HasRPLoop me := fun _ _ _ => rfl
  constructor
  · intro h
    unfold _Decide
    simp only [hd, if_true, hq, gt_iff_lt, lt_self_iff_false, if_false, hloop, h]
    simp
  · intro h
    have e : (_Decide S me state).1 = Move.cast (1 + me.rng 0 % 4) := by
      unfold _Decide
      simp only [hd, if_true, hq, gt_iff_lt, lt_self_iff_false, if_false, hloop, h]
      rfl
    exact ⟨e, e ▸ cast_directional _⟩

theorem Decide_no_safe_place_witness :
    (_Decide sceneStrategy (agentWith (queueOf []) (historyOf [⟨1, 1⟩, ⟨1, 2⟩, ⟨1, 1⟩, ⟨1, 2⟩]) 6)
      { agent := ⟨1, 1, 0, 1⟩, danger := 2, enemyNear := false, woodNear := false,
        safePlace := [], enemy := [], powerup := [], safeDirs := [] }).1
      ∈ [Move.UP, Move.DOWN, Move.LEFT, Move.RIGHT] ∧
    (_Decide sceneStrategy (agentWith (queueOf []) (historyOf [⟨1, 1⟩, ⟨1, 2⟩, ⟨1, 3⟩]) 6)
      { agent := ⟨1, 1, 0, 1⟩, danger := 2, enemyNear := false, woodNear := false,
        safePlace := [], enemy := [], powerup := [], safeDirs := [] }).1 = Move.IDLE :=
  ⟨((Decide_no_safe_place sceneStrategy
      (agentWith (queueOf []) (historyOf [⟨1, 1⟩, ⟨1, 2⟩, ⟨1, 1⟩, ⟨1, 2⟩]) 6)
      { agent := ⟨1, 1, 0, 1⟩, danger := 2, enemyNear := false, woodNear := false,
        safePlace := [], enemy := [], powerup := [], safeDirs := [] }
      (by decide) rfl).2 (by decide)).2,
   (Decide_no_safe_place sceneStrategy
      (agentWith (queueOf []) (historyOf [⟨1, 1⟩, ⟨1, 2⟩, ⟨1, 3⟩]) 6)
      { agent := ⟨1, 1, 0, 1⟩, danger := 2, enemyNear := false, woodNear := false,
        safePlace := [], enemy := [], powerup := [], safeDirs := [] }
      (by decide) rfl).1 (by decide)⟩

/-- C5: a history holding exactly A, B, A, B (oldest to newest) is flagged by `_HasRPLoop`, and a
history holding exactly A, B, C with A, B, C pairwise different is not. -/
theorem HasRPLoop_period_two (me : SimpleAgent RMap X) (A B C : Position) :
    (me.recentPositions.toList = [A, B, A, B] → _HasRPLoop me = true) ∧
    (me.recentPositions.toList = [A, B, C] → A ≠ B → B ≠ C → A ≠ C →
      _HasRPLoop me = false) := by
  constructor
  · intro h
    have hc : me.recentPositions.count = 4 := by
      have := congrArg List.length h
      simpa [length_toList] using this
    have g0 := getElem?_toList me.recentPositions 0 (by omega)
    have g1 := getElem?_toList me.recentPositions 1 (by omega)
    have g2 := getElem?_toList me.recentPositions 2 (by omega)
    have g3 := getElem?_toList me.recentPositions 3 (by omega)
    rw [h] at g0 g1 g2 g3
    simp only [List.getElem?_cons_zero, List.getElem?_cons_succ, Option.some.injEq] at g0 g1 g2 g3
    unfold _HasRPLoop
    rw [hc]
    simp [List.range_succ, ← g0, ← g1, ← g2, ← g3]
  · intro h _ _ hAC
    have hc : me.recentPositions.count = 3 := by
      have := congrArg List.length h
      simpa [length_toList] using this
    have g0 := getElem?_toList me.recentPositions 0 (by omega)
    have g2 := getElem?_toList me.recentPositions 2 (by omega)
    rw [h] at g0 g2
    simp only [List.getElem?_cons_zero, List.getElem?_cons_succ, Option.some.injEq] at g0 g2
    unfold _HasRPLoop
    rw [hc]
    simp [List.range_succ, ← g0, ← g2, hAC]

theorem HasRPLoop_period_two_witness :
    _HasRPLoop (agentWith (queueOf []) (historyOf [⟨1, 1⟩, ⟨1, 2⟩, ⟨1, 1⟩, ⟨1, 2⟩]) 0) = true ∧
    _HasRPLoop (agentWith (queueOf []) (historyOf [⟨1, 1⟩, ⟨1, 2⟩, ⟨1, 3⟩]) 0) = false :=
  ⟨(HasRPLoop_period_two (agentWith (queueOf []) (historyOf [⟨1, 1⟩, ⟨1, 2⟩, ⟨1, 1⟩, ⟨1, 2⟩]) 0)
      ⟨1, 1⟩ ⟨1, 2⟩ ⟨0, 0⟩).1 (by decide),
   (HasRPLoop_period_two (agentWith (queueOf []) (historyOf [⟨1, 1⟩, ⟨1, 2⟩, ⟨1, 3⟩]) 0)
      ⟨1, 1⟩ ⟨1, 2⟩ ⟨1, 3⟩).2 (by decide) (by decide) (by decide) (by decide)⟩

/-- C6 (failing input): an agent of history capacity 4 whose first episode recorded (3, 3),
(4, 4), (5, 5) is reset and then records (1, 1) and (1, 2).  Its retained window is (1, 1),
(1, 2): no index `i` has `i + 2 < count`, so the stated criterion holds, yet `_HasRPLoop` answers
false, because it compares entry 0 with the slot two places on, which still holds (5, 5).  Had
the first episode recorded (1, 1) in that slot, the window would be the same and the answer
true. -/
theorem HasRPLoop_reads_outside_window :
    (secondEpisodeTwoTicks ⟨5, 5⟩).recentPositions.toList = [⟨1, 1⟩, ⟨1, 2⟩] ∧
    (secondEpisodeTwoTicks ⟨5, 5⟩).recentPositions.count ≤ 4 ∧
    (∀ i, i + 2 < (secondEpisodeTwoTicks ⟨5, 5⟩).recentPositions.count →
      (secondEpisodeTwoTicks ⟨5, 5⟩).recentPositions.get i
        = (secondEpisodeTwoTicks ⟨5, 5⟩).recentPositions.get (i + 2)) ∧
    _HasRPLoop (secondEpisodeTwoTicks ⟨5, 5⟩) = false ∧
    (secondEpisodeTwoTicks ⟨1, 1⟩).recentPositions.toList = [⟨1, 1⟩, ⟨1, 2⟩] ∧
    _HasRPLoop (secondEpisodeTwoTicks ⟨1, 1⟩) = true := by
  refine ⟨by decide, by decide, ?_, by decide, by decide, by decide⟩
  intro i hi
  have : (secondEpisodeTwoTicks ⟨5, 5⟩).recentPositions.count = 2 := by decide
  omega

theorem SampleFromMoveQueue_recentPositions (S : Strategy State RMap Item)
    (me : SimpleAgent RMap X) (state : State) (avoidRecent : Bool) :
    (_SampleFromMoveQueue S me state avoidRecent).2.recentPositions = me.recentPositions := by
  unfold _SampleFromMoveQueue
  split
  · rfl
  · split <;> rfl

theorem MoveSafeOneSpace_recentPositions (S : Strategy State RMap Item)
    (me : SimpleAgent RMap X) (state : State) (avoidRecent : Bool) :
    (_MoveSafeOneSpace S me state avoidRecent).2.recentPositions = me.recentPositions := by
  unfold _MoveSafeOneSpace
  rw [SampleFromMoveQueue_recentPositions]

theorem Decide_recentPositions (S : Strategy State RMap Item) (me : SimpleAgent RMap X)
    (state : State) : (_Decide S me state).2.recentPositions = me.recentPositions := by
  unfold _Decide
  simp only
  split_ifs <;>
    first
      | rfl
      | rw [SampleFromMoveQueue_recentPositions]
      | rw [MoveSafeOneSpace_recentPositions]

/-- C7: `act` returns exactly the move computed by `_Decide`; afterwards the history holds the
previous entries in their order, without the oldest one iff the history was at capacity, followed
by the intended position of that move, and its length does not exceed the capacity.  The history
is taken within its capacity `X > 0` before the call. -/
theorem act_records_intended_position (S : Strategy State RMap Item) (me : SimpleAgent RMap X)
    (state : State) (hX : 0 < X) (hc : me.recentPositions.count ≤ X) :
    (SimpleAgent.act S me state).1 = (_Decide S me state).1 ∧
    (SimpleAgent.act S me state).2.recentPositions.toList
      = (if me.recentPositions.count = X then me.recentPositions.toList.tail
          else me.recentPositions.toList)
        ++ [S.DesiredPosition (S.agents state me.id).x (S.agents state me.id).y
              (_Decide S me state).1] ∧
    (SimpleAgent.act S me state).2.recentPositions.count ≤ X := by
  refine ⟨rfl, ?_, ?_⟩
  · unfold SimpleAgent.act
    simp only [Decide_recentPositions, RemainingCapacity]
    by_cases h : me.recentPositions.count = X
    · have h0 : (X : Int) - (me.recentPositions.count : Int) = 0 := by omega
      rw [if_pos h0, if_pos h, toList_AddElem _ _ (by simp only [PopElem]; omega), toList_PopElem]
    · have h0 : ¬ ((X : Int) - (me.recentPositions.count : Int) = 0) := by omega
      rw [if_neg h0, if_neg h, toList_AddElem _ _ (by omega)]
  · unfold SimpleAgent.act
    simp only [Decide_recentPositions, RemainingCapacity]
    by_cases h : me.recentPositions.count = X
    · have h0 : (X : Int) - (me.recentPositions.count : Int) = 0 := by omega
      rw [if_pos h0]
      simp only [count_AddElem, PopElem]
      omega
    · have h0 : ¬ ((X : Int) - (me.recentPositions.count : Int) = 0) := by omega
      rw [if_neg h0]
      simp only [count_AddElem]
      omega

theorem act_records_intended_position_witness :
    (0 < 4 ∧ (historyOf [⟨1, 1⟩, ⟨1, 2⟩, ⟨1, 1⟩, ⟨1, 3⟩]).count ≤ 4) ∧
    (SimpleAgent.act sceneStrategy
      (agentWith (queueOf []) (historyOf [⟨1, 1⟩, ⟨1, 2⟩, ⟨1, 1⟩, ⟨1, 3⟩]) 0)
      powerupScene).2.recentPositions.count ≤ 4 ∧
    (SimpleAgent.act sceneStrategy
      (agentWith (queueOf []) (historyOf [⟨1, 1⟩, ⟨1, 2⟩, ⟨1, 1⟩, ⟨1, 3⟩]) 0)
      powerupScene).2.recentPositions.toList = [⟨1, 2⟩, ⟨1, 1⟩, ⟨1, 3⟩, ⟨1, 2⟩] :=
  ⟨⟨by decide, by decide⟩,
    (act_records_intended_position sceneStrategy
      (agentWith (queueOf []) (historyOf [⟨1, 1⟩, ⟨1, 2⟩, ⟨1, 1⟩, ⟨1, 3⟩]) 0)
      powerupScene (by decide) (by decide)).2.2,
    (act_records_intended_position sceneStrategy
      (agentWith (queueOf []) (historyOf [⟨1, 1⟩, ⟨1, 2⟩, ⟨1, 1⟩, ⟨1, 3⟩]) 0)
      powerupScene (by decide) (by decide)).2.1.trans (by decide)⟩

theorem get_mem_toList {T : Type} {TSize : Nat} (q : FixedQueue T TSize) (k : Nat)
    (hk : k < q.count) : q.get k ∈ q.toList := by
  unfold FixedQueue.toList
  exact List.mem_map.2 ⟨k, List.mem_range.2 hk, rfl⟩

/-- C8 (as stated, refuted): in `powerupScene` the agent has bomb capacity, the offense branch
yields no action and the power-up search would add `UP`, yet `_Decide` returns `DOWN`, the safe
single step: the power-up search is not run. -/
theorem Decide_skips_powerup_after_offense :
    ¬ PowerupAfterOffense sceneStrategy
        (agentWith (queueOf []) (historyOf [⟨1, 1⟩, ⟨1, 2⟩, ⟨1, 3⟩]) 0) powerupScene := by
  intro h
  have := h rfl (by decide) rfl rfl (by decide) (by decide) (by decide)
  revert this
  decide

/-- C8 (amended): the power-up search is consulted only when the agent has no bomb capacity.
With danger 0 and `bombCount >= maxBombCount`, if the queue is not empty after the power-up
search within radius 2, `_Decide` returns the candidate at index `rng % count` of that queue,
one of its candidates.  With bomb capacity available and an offense branch that yields no
action, `_Decide` skips the power-up search and returns what `_MoveSafeOneSpace` with recency
avoidance returns on the queue the enemy search left. -/
theorem Decide_powerup_only_without_bombs (S : Strategy State RMap Item)
    (me : SimpleAgent RMap X) (state : State) (hd : S.IsInDanger state me.id = 0) :
    (¬ (S.agents state me.id).bombCount < (S.agents state me.id).maxBombCount →
      0 < (S.MoveTowardsPowerup state (S.FillRMap state me.r me.id) 2 me.moveQueue).count →
      (_Decide S me state).1
        = (S.MoveTowardsPowerup state (S.FillRMap state me.r me.id) 2 me.moveQueue).get
            (me.rng 0
              % (S.MoveTowardsPowerup state (S.FillRMap state me.r me.id) 2 me.moveQueue).count) ∧
      (_Decide S me state).1
        ∈ (S.MoveTowardsPowerup state (S.FillRMap state me.r me.id) 2 me.moveQueue).toList) ∧
    ((S.agents state me.id).bombCount < (S.agents state me.id).maxBombCount →
      S.IsAdjacentEnemy state me.id 2 = false →
      S.IsAdjacentItem state me.id 1 S.WOOD = false →
      _HasRPLoop me = false →
      (S.MoveTowardsEnemy state (S.FillRMap state me.r me.id) 7 me.moveQueue).count = 0 →
      _Decide S me state
        = _MoveSafeOneSpace S
            { me with
              r := S.FillRMap state me.r me.id, danger := 0,
              moveQueue := S.MoveTowardsEnemy state (S.FillRMap state me.r me.id) 7 me.moveQueue }
            state true) := by
  have hloop : ∀ (r : RMap) (d : Int),
      _HasRPLoop { me with r := r, danger := d } = _HasRPLoop me := fun _ _ => rfl
  constructor
  · intro hb hq
    have e : (_Decide S me state).1
        = (S.MoveTowardsPowerup state (S.FillRMap state me.r me.id) 2 me.moveQueue).get
            (me.rng 0
              % (S.MoveTowardsPowerup state (S.FillRMap state me.r me.id) 2 me.moveQueue).count) := by
      unfold _Decide
      simp only [hd, gt_iff_lt, lt_self_iff_false, if_false, hb, hq, if_true]
      unfold _SampleFromMoveQueue
      simp only [Nat.ne_of_gt hq, if_false]
      rfl
    refine ⟨e, ?_⟩
    rw [e]
    exact get_mem_toList _ _ (Nat.mod_lt _ hq)
  · intro hb he hw hl hq
    unfold _Decide
    simp only [hd, gt_iff_lt, lt_self_iff_false, if_false, hb, if_true, he, hw, hloop, hl, hq]
    simp

theorem Decide_powerup_only_without_bombs_witness :
    (_Decide sceneStrategy (agentWith (queueOf []) (historyOf [⟨1, 1⟩]) 5) pickupScene).1
        ∈ (sceneStrategy.MoveTowardsPowerup pickupScene () 2 (queueOf [])).toList ∧
    _Decide sceneStrategy (agentWith (queueOf []) (historyOf [⟨1, 1⟩, ⟨1, 2⟩, ⟨1, 3⟩]) 0)
        powerupScene
      = _MoveSafeOneSpace sceneStrategy
          (agentWith (queueOf []) (historyOf [⟨1, 1⟩, ⟨1, 2⟩, ⟨1, 3⟩]) 0) powerupScene true :=
  ⟨((Decide_powerup_only_without_bombs sceneStrategy
      (agentWith (queueOf []) (historyOf [⟨1, 1⟩]) 5) pickupScene rfl).1
        (by decide) (by decide)).2,
   (Decide_powerup_only_without_bombs sceneStrategy
      (agentWith (queueOf []) (historyOf [⟨1, 1⟩, ⟨1, 2⟩, ⟨1, 3⟩]) 0) powerupScene rfl).2
        (by decide) rfl rfl (by decide) (by decide)⟩

/-- C9: when the agent is not threatened (danger 0), has no bomb capacity left, starts the
decision with an empty candidate queue, and neither the power-up search nor `SafeDirections` adds
a candidate, `_Decide` returns `IDLE`, whatever the history and the generator hold. -/
theorem Decide_idle_fallback (S : Strategy State RMap Item) (me : SimpleAgent RMap X)
    (state : State) (hd : S.IsInDanger state me.id = 0)
    (hb : (S.agents state me.id).maxBombCount ≤ (S.agents state me.id).bombCount)
    (h0 : me.moveQueue.count = 0)
    (hp : (S.MoveTowardsPowerup state (S.FillRMap state me.r me.id) 2 me.moveQueue).count
      = me.moveQueue.count)
    (hs : (S.SafeDirections state
        (S.MoveTowardsPowerup state (S.FillRMap state me.r me.id) 2 me.moveQueue)
        (S.agents state me.id).x (S.agents state me.id).y).count
      = (S.MoveTowardsPowerup state (S.FillRMap state me.r me.id) 2 me.moveQueue).count) :
    (_Decide S me state).1 = Move.IDLE := by
  rw [h0] at hp
  rw [hp] at hs
  unfold _Decide
  simp only [hd, gt_iff_lt, lt_self_iff_false, if_false, not_lt.2 hb, hp]
  unfold _MoveSafeOneSpace _SampleFromMoveQueue
  simp only [hs, if_true]

theorem Decide_idle_fallback_witness :
    (_Decide sceneStrategy
      (agentWith (queueOf []) (historyOf [⟨1, 1⟩, ⟨1, 0⟩, ⟨1, 1⟩, ⟨1, 0⟩]) 3)
      enclosedScene).1 = Move.IDLE :=
  Decide_idle_fallback sceneStrategy
    (agentWith (queueOf []) (historyOf [⟨1, 1⟩, ⟨1, 0⟩, ⟨1, 1⟩, ⟨1, 0⟩]) 3)
    enclosedScene rfl (by decide) rfl rfl rfl

/-- C10 (failing input): a fresh agent (empty queue, empty history) acts in `pickupScene`; the
power-up search adds `UP`, `act` returns `UP` and leaves `UP` in the candidate queue.  On the next
tick, in `enclosedScene`, no primitive adds a candidate, yet `_Decide` finds the queue non-empty
and returns the stale `UP`; the same agent with the same history and generator but an empty
queue returns `IDLE`. -/
theorem Decide_depends_on_leftover_queue :
    (SimpleAgent.act sceneStrategy (agentWith (queueOf []) (historyOf []) 0) pickupScene).1
      = Move.UP ∧
    (SimpleAgent.act sceneStrategy (agentWith (queueOf []) (historyOf []) 0)
      pickupScene).2.moveQueue.toList = [Move.UP] ∧
    (_Decide sceneStrategy
      (SimpleAgent.act sceneStrategy (agentWith (queueOf []) (historyOf []) 0) pickupScene).2
      enclosedScene).1 = Move.UP ∧
    (_Decide sceneStrategy
      { (SimpleAgent.act sceneStrategy (agentWith (queueOf []) (historyOf []) 0)
          pickupScene).2 with moveQueue := queueOf [] }
      enclosedScene).1 = Move.IDLE := by
  refine ⟨by decide, by decide, by decide, by decide⟩

/-- C12: after `reset` the recent-position history and the candidate queue are both empty
(count 0, empty retained window), whatever they held before. -/
theorem reset_empties_queues (me : SimpleAgent RMap X) :
    me.reset.recentPositions.count = 0 ∧ me.reset.moveQueue.count = 0 ∧
    me.reset.recentPositions.toList = [] ∧ me.reset.moveQueue.toList = [] := by
  refine ⟨rfl, rfl, ?_, ?_⟩ <;> simp [SimpleAgent.reset, FixedQueue.toList]

/-- C19: a history holding fewer than two entries is flagged by `_HasRPLoop`; in particular the
history right after `reset` is, whatever the agent held before, so the first decision after a
reset is treated as oscillating. -/
theorem HasRPLoop_short_history (me : SimpleAgent RMap X) :
    (me.recentPositions.count < 2 → _HasRPLoop me = true) ∧ _HasRPLoop me.reset = true := by
  constructor
  · intro h
    have h0 : me.recentPositions.count / 2 = 0 := by omega
    simp [_HasRPLoop, h0]
  · simp [_HasRPLoop, SimpleAgent.reset]

theorem HasRPLoop_short_history_witness :
    (historyOf [⟨1, 1⟩]).count < 2 ∧
    _HasRPLoop (agentWith (queueOf []) (historyOf [⟨1, 1⟩]) 0) = true :=
  ⟨by decide,
    (HasRPLoop_short_history (agentWith (queueOf []) (historyOf [⟨1, 1⟩]) 0)).1 (by decide)⟩

/-- C15: with danger 0, bomb capacity available, no enemy within distance 2, no wood within
distance 1 and an oscillation reported by `_HasRPLoop`, `_Decide` returns `IDLE` when the queue
is empty after `SafeDirections`, and otherwise the candidate at index `rng % count` of that
queue, in the order the primitives left it; the enemy search is not consulted: replacing it by
any other function changes nothing. -/
theorem Decide_breaks_loop (S : Strategy State RMap Item) (me : SimpleAgent RMap X)
    (state : State) (hd : S.IsInDanger state me.id = 0)
    (hb : (S.agents state me.id).bombCount < (S.agents state me.id).maxBombCount)
    (he : S.IsAdjacentEnemy state me.id 2 = false)
    (hw : S.IsAdjacentItem state me.id 1 S.WOOD = false)
    (hl : _HasRPLoop me = true) :
    ((S.SafeDirections state me.moveQueue (S.agents state me.id).x
        (S.agents state me.id).y).count = 0 →
      (_Decide S me state).1 = Move.IDLE) ∧
    ((S.SafeDirections state me.moveQueue (S.agents state me.id).x
        (S.agents state me.id).y).count ≠ 0 →
      (_Decide S me state).1
        = (S.SafeDirections state me.moveQueue (S.agents state me.id).x
            (S.agents state me.id).y).get
          (me.rng 0 % (S.SafeDirections state me.moveQueue (S.agents state me.id).x
            (S.agents state me.id).y).count)) ∧
    (∀ f, _Decide { S with MoveTowardsEnemy := f } me state = _Decide S me state) := by
  have hloop : ∀ (r : RMap) (d : Int),
      _HasRPLoop { me with r := r, danger := d } = _HasRPLoop me := fun _ _ => rfl
  have e : ∀ S' : Strategy State RMap Item, S'.IsInDanger state me.id = 0 →
      (S'.agents state me.id).bombCount < (S'.agents state me.id).maxBombCount →
      S'.IsAdjacentEnemy state me.id 2 = false →
      S'.IsAdjacentItem state me.id 1 S'.WOOD = false →
      _Decide S' me state
        = _MoveSafeOneSpace S' { me with r := S'.FillRMap state me.r me.id, danger := 0 }
            state false := by
    intro S' hd' hb' he' hw'
    unfold _Decide
    simp only [hd', gt_iff_lt, lt_self_iff_false, if_false, hb', if_true, he', hw', hloop, hl]
    simp
  refine ⟨?_, ?_, ?_⟩
  · intro h0
    rw [e S hd hb he hw]
    unfold _MoveSafeOneSpace _SampleFromMoveQueue
    simp only [h0, if_true]
  · intro h0
    rw [e S hd hb he hw]
    unfold _MoveSafeOneSpace _SampleFromMoveQueue
    simp only [h0, if_false]
    rfl
  · intro f
    rw [e S hd hb he hw, e { S with MoveTowardsEnemy := f } hd hb he hw]
    rfl

theorem Decide_breaks_loop_witness :
    (_Decide sceneStrategy (agentWith (queueOf []) (historyOf [⟨1, 1⟩]) 5)
      { agent := ⟨1, 1, 0, 1⟩, danger := 0, enemyNear := false, woodNear := false,
        safePlace := [], enemy := [Move.UP], powerup := [],
        safeDirs := [Move.LEFT, Move.DOWN] }).1 = Move.DOWN :=
  ((Decide_breaks_loop sceneStrategy (agentWith (queueOf []) (historyOf [⟨1, 1⟩]) 5)
      { agent := ⟨1, 1, 0, 1⟩, danger := 0, enemyNear := false, woodNear := false,
        safePlace := [], enemy := [Move.UP], powerup := [],
        safeDirs := [Move.LEFT, Move.DOWN] }
      rfl (by decide) rfl rfl (by decide)).2.1 (by decide)).trans (by decide)

end agents

namespace bboard.strategy

open bboard.FixedQueue

theorem visitList_perm (dest : Move → Position) :
    ∀ (hs : List Position) (u m : List Move),
      ((visitList dest hs u m).2 ++ (visitList dest hs u m).1).Perm (m ++ u) := by
  intro hs
  induction hs with
  | nil => intro u m; exact List.Perm.refl _
  | cons h hs ih =>
    intro u m
    simp only [visitList]
    cases hf : u.find? (fun c => decide (dest c = h)) with
    | none => exact ih u m
    | some c0 =>
      have hc0 : dest c0 = h := by simpa using List.find?_some hf
      have hmem0 : c0 ∈ u := List.mem_of_find?_eq_some hf
      obtain ⟨a, l1, l2, hl1, hpa, hu, he⟩ :=
        @List.exists_of_eraseP _ (fun c => decide (dest c = h)) _ _ hmem0 (by simpa using hc0)
      have hfa : u.find? (fun c => decide (dest c = h)) = some a := by
        rw [hu, List.find?_append, List.find?_eq_none.2 (fun b hb => hl1 b hb)]
        simp [List.find?_cons, hpa]
      have hca : c0 = a := by
        rw [hf] at hfa
        exact Option.some.inj hfa
      refine (ih _ _).trans ?_
      rw [he, hu, hca, List.append_assoc]
      refine List.Perm.append_left m ?_
      simpa using (@List.perm_middle _ a l1 l2).symm

theorem visitList_extends (dest : Move → Position) :
    ∀ (hs : List Position) (u m : List Move), ∃ t, (visitList dest hs u m).2 = m ++ t := by
  intro hs
  induction hs with
  | nil => intro u m; exact ⟨[], by simp [visitList]⟩
  | cons h hs ih =>
    intro u m
    simp only [visitList]
    cases hf : u.find? (fun c => decide (dest c = h)) with
    | none => exact ih u m
    | some c0 =>
      obtain ⟨t, ht⟩ := ih (u.eraseP (fun c => decide (dest c = h))) (m ++ [c0])
      exact ⟨c0 :: t, by rw [ht]; simp⟩

theorem sortedList_perm (dest : Move → Position) (history : List Position)
    (moves : List Move) : (sortedList dest history moves).Perm moves := by
  simpa [sortedList] using visitList_perm dest history.reverse moves []

/-- C16: `SortDirections` only reorders: for a candidate queue within its capacity the sorted
queue has the same count and its retained window is a permutation of the one before (the same
multiset of moves).  The history is an argument that is only read. -/
theorem SortDirections_only_reorders {X : Nat} (dp : Int → Int → Move → Position)
    (q : FixedQueue Move MOVE_COUNT) (p : FixedQueue Position X) (x y : Int)
    (hc : q.count ≤ MOVE_COUNT) :
    (SortDirections dp q p x y).count = q.count ∧
    (SortDirections dp q p x y).toList.Perm q.toList := by
  obtain ⟨hcnt, hl⟩ := SortDirections.toList_eq dp q p x y hc
  exact ⟨hcnt, hl ▸ sortedList_perm (dp x y) p.toList q.toList⟩

theorem SortDirections_only_reorders_witness :
    (queueOf [Move.UP, Move.LEFT, Move.DOWN]).count ≤ MOVE_COUNT ∧
    (SortDirections util.DesiredPosition (queueOf [Move.UP, Move.LEFT, Move.DOWN])
      (historyOf [⟨1, 2⟩, ⟨1, 0⟩]) 1 1).count = 3 ∧
    (SortDirections util.DesiredPosition (queueOf [Move.UP, Move.LEFT, Move.DOWN])
      (historyOf [⟨1, 2⟩, ⟨1, 0⟩]) 1 1).toList.Perm [Move.UP, Move.LEFT, Move.DOWN] :=
  ⟨by decide,
    (SortDirections_only_reorders util.DesiredPosition (queueOf [Move.UP, Move.LEFT, Move.DOWN])
      (historyOf [⟨1, 2⟩, ⟨1, 0⟩]) 1 1 (by decide)).1,
    (SortDirections_only_reorders util.DesiredPosition (queueOf [Move.UP, Move.LEFT, Move.DOWN])
      (historyOf [⟨1, 2⟩, ⟨1, 0⟩]) 1 1 (by decide)).2⟩

theorem reverse_toList_succ {T : Type} {TSize : Nat} (p : FixedQueue T TSize) (hp : 0 < p.count) :
    p.toList.reverse
      = p.get (p.count - 1) :: ((List.range (p.count - 1)).map p.get).reverse := by
  obtain ⟨n, hn⟩ : ∃ n, p.count = n + 1 := ⟨p.count - 1, by omega⟩
  simp [FixedQueue.toList, hn, List.range_succ]

/-- C13 (as stated, refuted): on the over-full queue `overfullQueue` (count 7 on six slots, UP
at index 3) with the history (1, 2), (1, 0) at (1, 1), some candidate leads to the newest entry
(1, 0), yet the shifting and appending of `SortDirections` overwrite the wrapped window and the
sorted queue holds DOWN at every index: the front candidate leads to (1, 2). -/
theorem SortDirections_overfull_front :
    ¬ NewestFirst (util.DesiredPosition 1 1) agents.overfullQueue (historyOf [⟨1, 2⟩, ⟨1, 0⟩])
        (SortDirections util.DesiredPosition agents.overfullQueue
          (historyOf [⟨1, 2⟩, ⟨1, 0⟩]) 1 1) := by
  intro h
  have := h (by decide) ⟨3, by decide, by decide⟩
  revert this
  decide

/-- C13 (amended): for a candidate queue within its capacity (count at most `MOVE_COUNT`) and a
non-empty history, if some candidate's destination equals the newest history entry, then after
`SortDirections` the candidate at the front of the queue (index 0) has that destination. -/
theorem SortDirections_newest_first {X : Nat} (dp : Int → Int → Move → Position)
    (q : FixedQueue Move MOVE_COUNT) (p : FixedQueue Position X) (x y : Int)
    (hc : q.count ≤ MOVE_COUNT) (hp : 0 < p.count)
    (hex : ∃ i, i < q.count ∧ dp x y (q.get i) = p.get (p.count - 1)) :
    dp x y ((SortDirections dp q p x y).get 0) = p.get (p.count - 1) := by
  obtain ⟨i, hi, hdi⟩ := hex
  rw [SortDirections.get_eq dp q p x y hc 0 (by omega)]
  unfold sortedList
  rw [reverse_toList_succ p hp]
  simp only [visitList]
  have hmem : q.get i ∈ q.toList :=
    List.mem_map.2 ⟨i, List.mem_range.2 hi, rfl⟩
  cases hf : q.toList.find? (fun c => decide (dp x y c = p.get (p.count - 1))) with
  | none =>
    rw [List.find?_eq_none] at hf
    exact absurd (by simpa using hdi) (hf _ hmem)
  | some c0 =>
    have hc0 : dp x y c0 = p.get (p.count - 1) := by simpa using List.find?_some hf
    obtain ⟨t, ht⟩ := visitList_extends (dp x y)
      ((List.range (p.count - 1)).map p.get).reverse
      (q.toList.eraseP (fun c => decide (dp x y c = p.get (p.count - 1)))) ([] ++ [c0])
    simp only [ht]
    simpa using hc0

theorem SortDirections_newest_first_witness :
    (queueOf [Move.UP, Move.LEFT, Move.DOWN]).count ≤ MOVE_COUNT ∧
    0 < (historyOf [⟨1, 0⟩, ⟨1, 2⟩]).count ∧
    util.DesiredPosition 1 1
      ((SortDirections util.DesiredPosition (queueOf [Move.UP, Move.LEFT, Move.DOWN])
        (historyOf [⟨1, 0⟩, ⟨1, 2⟩]) 1 1).get 0)
      = (historyOf [⟨1, 0⟩, ⟨1, 2⟩]).get ((historyOf [⟨1, 0⟩, ⟨1, 2⟩]).count - 1) :=
  ⟨by decide, by decide,
    SortDirections_newest_first util.DesiredPosition (queueOf [Move.UP, Move.LEFT, Move.DOWN])
      (historyOf [⟨1, 0⟩, ⟨1, 2⟩]) 1 1 (by decide) (by decide) ⟨2, by decide, by decide⟩⟩

theorem two_le_length_of_mem_ne {α : Type} :
    ∀ {l : List α} {a b : α}, a ∈ l → b ∈ l → a ≠ b → 2 ≤ l.length
  | [], _, _, ha, _, _ => by simp at ha
  | [c], a, b, ha, hb, hne => by
    simp only [List.mem_singleton] at ha hb
    exact absurd (ha.trans hb.symm) hne
  | _ :: _ :: _, _, _, _, _, _ => by simp

theorem novel_mem_unmoved (dest : Move → Position) (history : List Position)
    (moves : List Move) (c : Move) (hc : c ∈ moves) (hn : dest c ∉ history) :
    c ∈ (visitList dest history.reverse moves []).1 := by
  have hperm := visitList_perm dest history.reverse moves []
  have hmem : c ∈ (visitList dest history.reverse moves []).2
      ++ (visitList dest history.reverse moves []).1 :=
    hperm.symm.subset (by simpa using hc)
  rcases List.mem_append.1 hmem with h | h
  · rcases visitList_moved dest _ _ _ _ h with h1 | h1
    · simp at h1
    · exact absurd (List.mem_reverse.1 h1) hn
  · exact h

theorem SortDirections.get_unmoved {X : Nat} (dp : Int → Int → Move → Position)
    (q : FixedQueue Move MOVE_COUNT) (p : FixedQueue Position X) (x y : Int)
    (hc : q.count ≤ MOVE_COUNT) (k : Nat) (hk : k < q.count)
    (hmk : (visitList (dp x y) p.toList.reverse q.toList []).2.length ≤ k) :
    (SortDirections dp q p x y).get k ∈ (visitList (dp x y) p.toList.reverse q.toList []).1 := by
  obtain ⟨hcnt, hl⟩ := SortDirections.toList_eq dp q p x y hc
  have hlen := sortedList_length (dp x y) p.toList q.toList
  rw [← hl, length_toList, hcnt] at hlen
  rw [SortDirections.get_eq dp q p x y hc k hk, sortedList,
    List.getD_append_right _ _ _ _ hmk, List.getD_eq_getElem _ _ (by omega)]
  exact List.getElem_mem _

theorem SortDirections.count_split {X : Nat} (dp : Int → Int → Move → Position)
    (q : FixedQueue Move MOVE_COUNT) (p : FixedQueue Position X) (x y : Int) :
    (visitList (dp x y) p.toList.reverse q.toList []).2.length
      + (visitList (dp x y) p.toList.reverse q.toList []).1.length = q.count := by
  have := (visitList_perm (dp x y) p.toList.reverse q.toList []).length_eq
  simpa [length_toList] using this

end bboard.strategy

namespace agents

open bboard bboard.strategy bboard.FixedQueue

variable {State RMap Item : Type} {X : Nat}

theorem count_le_of_nodup {T α : Type} {TSize : Nat} (f : T → α) (q : FixedQueue T TSize)
    (hT : 0 < TSize) (h : (q.toList.map f).Nodup) : q.count ≤ TSize := by
  by_contra hlt
  have hinj := List.nodup_iff_injective_get.1 h
  have h0 : 0 < (q.toList.map f).length := by
    simp only [List.length_map, length_toList]
    omega
  have h1 : TSize < (q.toList.map f).length := by
    simp only [List.length_map, length_toList]
    omega
  have he : q.get 0 = q.get TSize := by
    unfold FixedQueue.get
    rw [Nat.add_zero, Nat.add_mod_right]
  have := @hinj ⟨0, h0⟩ ⟨TSize, h1⟩ (by simp [getElem_toList, he])
  have h2 : 0 = TSize := by simpa using this
  omega

theorem SampleFromMoveQueue_avoid_eq (S : Strategy State RMap Item) (me : SimpleAgent RMap X)
    (state : State) (h0 : me.moveQueue.count ≠ 0) :
    (_SampleFromMoveQueue S me state true).1
      = (SortDirections S.DesiredPosition me.moveQueue me.recentPositions
          (S.agents state me.id).x (S.agents state me.id).y).get
        ((SortDirections S.DesiredPosition me.moveQueue me.recentPositions
            (S.agents state me.id).x (S.agents state me.id).y).count - 1
          - me.rng 0 % min 2 (SortDirections S.DesiredPosition me.moveQueue me.recentPositions
            (S.agents state me.id).x (S.agents state me.id).y).count) := by
  unfold _SampleFromMoveQueue
  simp only [h0, if_false, if_true]
  rfl

theorem SampleFromMoveQueue_tail_unmoved (S : Strategy State RMap Item)
    (me : SimpleAgent RMap X) (state : State) (h0 : me.moveQueue.count ≠ 0)
    (hc : me.moveQueue.count ≤ MOVE_COUNT)
    (hlen : me.rng 0 % min 2 me.moveQueue.count
      < (visitList (S.DesiredPosition (S.agents state me.id).x (S.agents state me.id).y)
          me.recentPositions.toList.reverse me.moveQueue.toList []).1.length) :
    (_SampleFromMoveQueue S me state true).1
      ∈ (visitList (S.DesiredPosition (S.agents state me.id).x (S.agents state me.id).y)
          me.recentPositions.toList.reverse me.moveQueue.toList []).1 := by
  have hsplit := SortDirections.count_split S.DesiredPosition me.moveQueue me.recentPositions
    (S.agents state me.id).x (S.agents state me.id).y
  have hcnt := (SortDirections.toList_eq S.DesiredPosition me.moveQueue me.recentPositions
    (S.agents state me.id).x (S.agents state me.id).y hc).1
  rw [SampleFromMoveQueue_avoid_eq S me state h0, hcnt]
  exact SortDirections.get_unmoved S.DesiredPosition me.moveQueue me.recentPositions
    (S.agents state me.id).x (S.agents state me.id).y hc _ (by omega) (by omega)

/-- C17: for a candidate queue whose moves have pairwise different destinations, every history
and every generator value: if at least two candidates have a destination that is not in the
history, the move returned by `_SampleFromMoveQueue` with `avoidRecent` has a destination that
is not in the history. -/
theorem SampleFromMoveQueue_two_novel (S : Strategy State RMap Item) (me : SimpleAgent RMap X)
    (state : State)
    (hd : (me.moveQueue.toList.map
      (S.DesiredPosition (S.agents state me.id).x (S.agents state me.id).y)).Nodup)
    (h2 : ∃ i j, i < me.moveQueue.count ∧ j < me.moveQueue.count ∧ i ≠ j ∧
      S.DesiredPosition (S.agents state me.id).x (S.agents state me.id).y (me.moveQueue.get i)
        ∉ me.recentPositions.toList ∧
      S.DesiredPosition (S.agents state me.id).x (S.agents state me.id).y (me.moveQueue.get j)
        ∉ me.recentPositions.toList) :
    S.DesiredPosition (S.agents state me.id).x (S.agents state me.id).y
        (_SampleFromMoveQueue S me state true).1
      ∉ me.recentPositions.toList := by
  obtain ⟨i, j, hi, hj, hij, hni, hnj⟩ := h2
  have hc : me.moveQueue.count ≤ MOVE_COUNT := count_le_of_nodup _ _ (by decide) hd
  have hmi := novel_mem_unmoved _ _ _ _ (get_mem_toList me.moveQueue i hi) hni
  have hmj := novel_mem_unmoved _ _ _ _ (get_mem_toList me.moveQueue j hj) hnj
  have hne : me.moveQueue.get i ≠ me.moveQueue.get j := by
    intro he
    have hinj := List.nodup_iff_injective_get.1 hd
    have hli : i < (me.moveQueue.toList.map
        (S.DesiredPosition (S.agents state me.id).x (S.agents state me.id).y)).length := by
      simpa [length_toList] using hi
    have hlj : j < (me.moveQueue.toList.map
        (S.DesiredPosition (S.agents state me.id).x (S.agents state me.id).y)).length := by
      simpa [length_toList] using hj
    have := @hinj ⟨i, hli⟩ ⟨j, hlj⟩ (by simp [getElem_toList, he])
    exact hij (by simpa using this)
  have hlen := two_le_length_of_mem_ne hmi hmj hne
  have hr : me.rng 0 % min 2 me.moveQueue.count < 2 :=
    lt_of_lt_of_le (Nat.mod_lt _ (by omega)) (Nat.min_le_left _ _)
  exact (visitList_unmoved _ _ _ _ _ hd
    (SampleFromMoveQueue_tail_unmoved S me state (by omega) hc (by omega))).2
    ∘ List.mem_reverse.2

theorem SampleFromMoveQueue_two_novel_witness :
    ((queueOf [Move.UP, Move.LEFT, Move.DOWN]).toList.map
      (sceneStrategy.DesiredPosition 1 1)).Nodup ∧
    sceneStrategy.DesiredPosition 1 1
        (_SampleFromMoveQueue sceneStrategy
          (agentWith (queueOf [Move.UP, Move.LEFT, Move.DOWN]) (historyOf [⟨1, 0⟩]) 1)
          powerupScene true).1
      ∉ (historyOf [⟨1, 0⟩]).toList :=
  ⟨by decide,
    SampleFromMoveQueue_two_novel sceneStrategy
      (agentWith (queueOf [Move.UP, Move.LEFT, Move.DOWN]) (historyOf [⟨1, 0⟩]) 1)
      powerupScene (by decide)
      ⟨1, 2, by decide, by decide, by decide, by decide, by decide⟩⟩

end agents

namespace bboard.FixedQueue

variable {T : Type} {TSize : Nat}

theorem shift_slots (P : T → Prop) (size idx : Nat) (hT : 0 < size) (mem : Nat → T) (i : Nat)
    (h : ∀ s, s < size → P (mem s)) :
    ∀ s, s < size → P (RemoveAt.shift size idx mem i s) := by
  intro s hs
  unfold RemoveAt.shift
  generalize (if (idx + i) % size = 0 then size - 1 else (idx + i) % size - 1) = a
  rw [Function.update_apply]
  split
  · exact h _ (Nat.mod_lt _ hT)
  · exact h s hs

theorem shift_foldl_slots (P : T → Prop) (size idx : Nat) (hT : 0 < size) :
    ∀ (l : List Nat) (mem : Nat → T), (∀ s, s < size → P (mem s)) →
      ∀ s, s < size → P (l.foldl (RemoveAt.shift size idx) mem s) := by
  intro l
  induction l with
  | nil => intro mem h; exact h
  | cons i l ih =>
    intro mem h
    rw [List.foldl_cons]
    exact ih _ (shift_slots P size idx hT mem i h)

theorem RemoveAt_slots (P : T → Prop) (q : FixedQueue T TSize) (i : Nat) (hT : 0 < TSize)
    (h : ∀ s, s < TSize → P (q.queue s)) :
    ∀ s, s < TSize → P ((q.RemoveAt i).queue s) :=
  shift_foldl_slots P TSize q.index hT _ q.queue h

theorem AddElem_slots (P : T → Prop) (q : FixedQueue T TSize) (e : T) (he : P e)
    (h : ∀ s, s < TSize → P (q.queue s)) :
    ∀ s, s < TSize → P ((q.AddElem e).queue s) := by
  intro s hs
  unfold AddElem
  simp only [Function.update_apply]
  split
  · exact he
  · exact h s hs

theorem get_slots (P : T → Prop) (q : FixedQueue T TSize) (hT : 0 < TSize)
    (h : ∀ s, s < TSize → P (q.queue s)) (k : Nat) : P (q.get k) :=
  h _ (Nat.mod_lt _ hT)

theorem slot_surj (idx s : Nat) (hs : s < TSize) :
    ∃ k, k < TSize ∧ (idx + k) % TSize = s := by
  have hT : 0 < TSize := by omega
  refine ⟨(s + (TSize - idx % TSize)) % TSize, Nat.mod_lt _ hT, ?_⟩
  rw [Nat.add_mod_mod]
  have hr : idx % TSize < TSize := Nat.mod_lt _ hT
  have hd := Nat.mod_add_div idx TSize
  have e : idx + (s + (TSize - idx % TSize)) = s + TSize * (idx / TSize + 1) := by
    rw [Nat.mul_add, Nat.mul_one]
    omega
  rw [e, Nat.add_mul_mod_self_left, Nat.mod_eq_of_lt hs]

theorem slots_of_toList (P : T → Prop) (q : FixedQueue T TSize) (hc : TSize ≤ q.count)
    (h : ∀ c, c ∈ q.toList → P c) : ∀ s, s < TSize → P (q.queue s) := by
  intro s hs
  obtain ⟨k, hk, hks⟩ := slot_surj q.index s hs
  have := h (q.get k) (List.mem_map.2 ⟨k, List.mem_range.2 (by omega), rfl⟩)
  unfold get at this
  rwa [hks] at this

theorem mem_toList_AddElem (q : FixedQueue T TSize) (e c : T)
    (h : c ∈ (q.AddElem e).toList) : c = e ∨ c ∈ q.toList := by
  obtain ⟨k, hk, rfl⟩ := List.mem_map.1 h
  have hk' : k < q.count + 1 := by simpa [count_AddElem] using hk
  unfold AddElem get
  simp only [Function.update_apply]
  split
  · exact Or.inl rfl
  · rename_i hne
    have hkc : k ≠ q.count := fun e => hne (by rw [e])
    exact Or.inr (List.mem_map.2 ⟨k, List.mem_range.2 (by omega), rfl⟩)

end bboard.FixedQueue

namespace bboard.strategy

open bboard.FixedQueue

theorem MOVE_COUNT_pos : 0 < MOVE_COUNT := by decide

theorem search_lt (dp : Int → Int → Move → Position) (q : FixedQueue Move MOVE_COUNT)
    (target : Position) (x y : Int) (bound i : Nat)
    (h : SortDirections.search dp q target x y bound = some i) : i < bound := by
  unfold SortDirections.search at h
  rw [List.find?_range_eq_some] at h
  exact List.mem_range.1 h.2.1

theorem visit_inv {X : Nat} (P : Move → Prop) (dp : Int → Int → Move → Position)
    (p : FixedQueue Position X) (x y : Int) (moves : Nat) :
    ∀ (j : Nat) (q : FixedQueue Move MOVE_COUNT) (mm : Nat), q.count = moves →
      (∀ s, s < MOVE_COUNT → P (q.queue s)) →
      (SortDirections.visit dp p x y moves j (q, mm)).1.count = moves ∧
      (∀ s, s < MOVE_COUNT →
        P ((SortDirections.visit dp p x y moves j (q, mm)).1.queue s)) := by
  intro j
  induction j with
  | zero => intro q mm hc h; exact ⟨hc, h⟩
  | succ j ih =>
    intro q mm hc h
    simp only [SortDirections.visit]
    cases hs : SortDirections.search dp q (p.get j) x y (moves - mm) with
    | none => exact ih q mm hc h
    | some i =>
      have hi := search_lt dp q _ x y _ i hs
      have hc1 : ((q.RemoveAt i).AddElem (q.get i)).count = moves := by
        simp only [count_AddElem, count_RemoveAt]
        omega
      have h1 : ∀ s, s < MOVE_COUNT → P (((q.RemoveAt i).AddElem (q.get i)).queue s) :=
        AddElem_slots P _ _ (get_slots P q MOVE_COUNT_pos h i)
          (RemoveAt_slots P q i MOVE_COUNT_pos h)
      simp only []
      split
      · exact ⟨hc1, h1⟩
      · exact ih _ _ hc1 h1

theorem rotate_inv (P : Move → Prop) :
    ∀ (n : Nat) (q : FixedQueue Move MOVE_COUNT), n ≤ q.count →
      (∀ s, s < MOVE_COUNT → P (q.queue s)) →
      (SortDirections.rotate n q).count = q.count ∧
      (∀ s, s < MOVE_COUNT → P ((SortDirections.rotate n q).queue s)) := by
  intro n
  induction n with
  | zero => intro q _ h; exact ⟨rfl, h⟩
  | succ n ih =>
    intro q hn h
    simp only [SortDirections.rotate]
    have hc1 : (q.PopElem.2.AddElem q.PopElem.1).count = q.count := by
      simp only [count_AddElem, PopElem]
      omega
    have h1 : ∀ s, s < MOVE_COUNT → P ((q.PopElem.2.AddElem q.PopElem.1).queue s) :=
      AddElem_slots P _ _ (get_slots P q MOVE_COUNT_pos h 0) h
    have := ih _ (by omega) h1
    exact ⟨this.1.trans hc1, this.2⟩

theorem SortDirections.inv {X : Nat} (P : Move → Prop) (dp : Int → Int → Move → Position)
    (q : FixedQueue Move MOVE_COUNT) (p : FixedQueue Position X) (x y : Int)
    (h : ∀ s, s < MOVE_COUNT → P (q.queue s)) :
    (SortDirections dp q p x y).count = q.count ∧
    (∀ s, s < MOVE_COUNT → P ((SortDirections dp q p x y).queue s)) := by
  have hv := visit_inv P dp p x y q.count p.count q 0 rfl h
  have hr := rotate_inv P
    (q.count - (SortDirections.visit dp p x y q.count p.count (q, 0)).2)
    (SortDirections.visit dp p x y q.count p.count (q, 0)).1 (by rw [hv.1]; omega) hv.2
  unfold SortDirections
  exact ⟨hr.1.trans hv.1, hr.2⟩

theorem SortDirections.count_eq {X : Nat} (dp : Int → Int → Move → Position)
    (q : FixedQueue Move MOVE_COUNT) (p : FixedQueue Position X) (x y : Int) :
    (SortDirections dp q p x y).count = q.count :=
  (SortDirections.inv (fun _ => True) dp q p x y (fun _ _ => trivial)).1

theorem SortDirections.get_of_forall {X : Nat} (P : Move → Prop)
    (dp : Int → Int → Move → Position) (q : FixedQueue Move MOVE_COUNT)
    (p : FixedQueue Position X) (x y : Int) (h : ∀ c, c ∈ q.toList → P c) (k : Nat)
    (hk : k < q.count) : P ((SortDirections dp q p x y).get k) := by
  by_cases hc : q.count ≤ MOVE_COUNT
  · obtain ⟨hcnt, hl⟩ := SortDirections.toList_eq dp q p x y hc
    have hmem : (SortDirections dp q p x y).get k ∈ (SortDirections dp q p x y).toList :=
      List.mem_map.2 ⟨k, List.mem_range.2 (by omega), rfl⟩
    rw [hl] at hmem
    exact h _ ((sortedList_perm (dp x y) p.toList q.toList).subset hmem)
  · exact get_slots P _ MOVE_COUNT_pos
      (SortDirections.inv P dp q p x y (slots_of_toList P q (by omega) h)).2 k

end bboard.strategy

namespace agents

open bboard bboard.strategy bboard.FixedQueue

variable {State RMap Item : Type} {X : Nat}

theorem SampleFromMoveQueue_plain_eq (S : Strategy State RMap Item) (me : SimpleAgent RMap X)
    (state : State) (h0 : me.moveQueue.count ≠ 0) :
    (_SampleFromMoveQueue S me state false).1
      = me.moveQueue.get (me.rng 0 % me.moveQueue.count) := by
  unfold _SampleFromMoveQueue
  simp only [h0, if_false]
  rfl

theorem SampleFromMoveQueue_of_forall (P : Move → Prop) (S : Strategy State RMap Item)
    (me : SimpleAgent RMap X) (state : State) (avoidRecent : Bool)
    (h0 : me.moveQueue.count ≠ 0) (h : ∀ c, c ∈ me.moveQueue.toList → P c) :
    P (_SampleFromMoveQueue S me state avoidRecent).1 := by
  cases avoidRecent with
  | false =>
    rw [SampleFromMoveQueue_plain_eq S me state h0]
    exact h _ (get_mem_toList _ _ (Nat.mod_lt _ (by omega)))
  | true =>
    rw [SampleFromMoveQueue_avoid_eq S me state h0, SortDirections.count_eq]
    exact SortDirections.get_of_forall P _ _ _ _ _ h _ (by omega)

/-- C14: `_SampleFromMoveQueue` returns `IDLE` on an empty queue.  On a non-empty queue both
divisors, `min(2, count)` and `count`, are non-zero, the indices read lie below `count`, and the
move returned is one of the candidates of the queue; with `avoidRecent` it is the candidate at
the last or at the second-to-last index of the ranked queue, and the only candidate when count
is 1. -/
theorem SampleFromMoveQueue_in_bounds (S : Strategy State RMap Item) (me : SimpleAgent RMap X)
    (state : State) (avoidRecent : Bool) :
    (me.moveQueue.count = 0 →
      (_SampleFromMoveQueue S me state avoidRecent).1 = Move.IDLE) ∧
    (me.moveQueue.count ≠ 0 →
      (min 2 (rankedQueue S me state).count ≠ 0 ∧ me.moveQueue.count ≠ 0) ∧
      (rankedQueue S me state).count = me.moveQueue.count ∧
      (me.rng 0 % min 2 (rankedQueue S me state).count ≤ (rankedQueue S me state).count - 1 ∧
        (rankedQueue S me state).count - 1 - me.rng 0 % min 2 (rankedQueue S me state).count
          < (rankedQueue S me state).count ∧
        me.rng 0 % me.moveQueue.count < me.moveQueue.count) ∧
      (_SampleFromMoveQueue S me state false).1
        = me.moveQueue.get (me.rng 0 % me.moveQueue.count) ∧
      (_SampleFromMoveQueue S me state true).1
        = (rankedQueue S me state).get
            ((rankedQueue S me state).count - 1
              - me.rng 0 % min 2 (rankedQueue S me state).count) ∧
      (_SampleFromMoveQueue S me state avoidRecent).1 ∈ me.moveQueue.toList ∧
      ((_SampleFromMoveQueue S me state true).1
          = (rankedQueue S me state).get ((rankedQueue S me state).count - 1) ∨
        (2 ≤ (rankedQueue S me state).count ∧
          (_SampleFromMoveQueue S me state true).1
            = (rankedQueue S me state).get ((rankedQueue S me state).count - 2))) ∧
      (me.moveQueue.count = 1 →
        (_SampleFromMoveQueue S me state true).1 = me.moveQueue.get 0)) := by
  constructor
  · intro h0
    unfold _SampleFromMoveQueue
    simp only [h0, if_true]
  · intro h0
    have hcnt : (rankedQueue S me state).count = me.moveQueue.count :=
      SortDirections.count_eq _ _ _ _ _
    have hav := SampleFromMoveQueue_avoid_eq S me state h0
    have hr : me.rng 0 % min 2 me.moveQueue.count < min 2 me.moveQueue.count :=
      Nat.mod_lt _ (by omega)
    have hr2 : min 2 me.moveQueue.count ≤ 2 := Nat.min_le_left _ _
    have hrc : min 2 me.moveQueue.count ≤ me.moveQueue.count := Nat.min_le_right _ _
    refine ⟨⟨by rw [hcnt]; omega, h0⟩, hcnt, ⟨by rw [hcnt]; omega, by rw [hcnt]; omega,
      Nat.mod_lt _ (by omega)⟩, SampleFromMoveQueue_plain_eq S me state h0, hav,
      SampleFromMoveQueue_of_forall (fun c => c ∈ me.moveQueue.toList) S me state avoidRecent h0
        (fun _ hc => hc), ?_, ?_⟩
    · rw [hav]
      unfold rankedQueue at hcnt ⊢
      rw [hcnt]
      have h01 : me.rng 0 % min 2 me.moveQueue.count = 0
          ∨ me.rng 0 % min 2 me.moveQueue.count = 1 := by omega
      rcases h01 with h | h
      · exact Or.inl (by rw [h]; rfl)
      · exact Or.inr ⟨by omega, by rw [h]; rfl⟩
    · intro h1
      have hall : ∀ c, c ∈ me.moveQueue.toList → c = me.moveQueue.get 0 := by
        intro c hc
        obtain ⟨k, hk, rfl⟩ := List.mem_map.1 hc
        have : k = 0 := by
          have := List.mem_range.1 hk
          omega
        rw [this]
      exact SampleFromMoveQueue_of_forall (fun c => c = me.moveQueue.get 0) S me state true h0
        hall

theorem SampleFromMoveQueue_in_bounds_witness :
    (queueOf [Move.UP, Move.LEFT]).count ≠ 0 ∧
    (_SampleFromMoveQueue sceneStrategy
      (agentWith (queueOf [Move.UP, Move.LEFT]) (historyOf [⟨1, 0⟩]) 3) powerupScene true).1
      ∈ (queueOf [Move.UP, Move.LEFT]).toList ∧
    (_SampleFromMoveQueue sceneStrategy
      (agentWith (queueOf []) (historyOf [⟨1, 0⟩]) 3) powerupScene true).1 = Move.IDLE :=
  ⟨by decide,
    ((SampleFromMoveQueue_in_bounds sceneStrategy
      (agentWith (queueOf [Move.UP, Move.LEFT]) (historyOf [⟨1, 0⟩]) 3) powerupScene true).2
      (by decide)).2.2.2.2.2.1,
    (SampleFromMoveQueue_in_bounds sceneStrategy
      (agentWith (queueOf []) (historyOf [⟨1, 0⟩]) 3) powerupScene true).1 rfl⟩

theorem appendMoves_mem :
    ∀ (ms : List Move) (q : FixedQueue Move MOVE_COUNT) (c : Move),
      c ∈ (appendMoves q ms).toList → c ∈ q.toList ∨ c ∈ ms := by
  intro ms
  induction ms with
  | nil => intro q c h; exact Or.inl h
  | cons m ms ih =>
    intro q c h
    unfold appendMoves at h
    rw [List.foldl_cons] at h
    rcases ih (q.AddElem m) c h with h1 | h1
    · rcases mem_toList_AddElem q m c h1 with h2 | h2
      · exact Or.inr (by rw [h2]; exact List.mem_cons_self _ _)
      · exact Or.inl h2
    · exact Or.inr (List.mem_cons_of_mem _ h1)

theorem appendMoves_directional (ms : List Move)
    (h : ∀ c, c ∈ ms → c ∈ [Move.UP, Move.DOWN, Move.LEFT, Move.RIGHT]) :
    EnqueuesDirectional (fun q => appendMoves q ms) := by
  intro q c hc
  rcases appendMoves_mem ms q c hc with h1 | h1
  · exact Or.inl h1
  · exact Or.inr (h c h1)

theorem no_bomb_after (f : FixedQueue Move MOVE_COUNT → FixedQueue Move MOVE_COUNT)
    (hf : EnqueuesDirectional f) (q : FixedQueue Move MOVE_COUNT)
    (hq : Move.BOMB ∉ q.toList) : Move.BOMB ∉ (f q).toList := by
  intro h
  rcases hf q _ h with h1 | h1
  · exact hq h1
  · revert h1
    decide

theorem SampleFromMoveQueue_ne_bomb (S : Strategy State RMap Item) (me : SimpleAgent RMap X)
    (state : State) (avoidRecent : Bool) (hq : Move.BOMB ∉ me.moveQueue.toList) :
    (_SampleFromMoveQueue S me state avoidRecent).1 ≠ Move.BOMB := by
  by_cases h0 : me.moveQueue.count = 0
  · unfold _SampleFromMoveQueue
    simp only [h0, if_true]
    decide
  · exact SampleFromMoveQueue_of_forall (fun c => c ≠ Move.BOMB) S me state avoidRecent h0
      (fun c hc e => hq (e ▸ hc))

theorem MoveSafeOneSpace_ne_bomb (S : Strategy State RMap Item) (me : SimpleAgent RMap X)
    (state : State) (avoidRecent : Bool)
    (hsd : ∀ x y, EnqueuesDirectional (fun q => S.SafeDirections state q x y))
    (hq : Move.BOMB ∉ me.moveQueue.toList) :
    (_MoveSafeOneSpace S me state avoidRecent).1 ≠ Move.BOMB := by
  unfold _MoveSafeOneSpace
  exact SampleFromMoveQueue_ne_bomb S _ state avoidRecent
    (no_bomb_after _ (hsd _ _) _ hq)

/-- C18: provided the candidate queue holds no `BOMB` at the start and the movement primitives
enqueue only directional moves, `_Decide` returns `BOMB` only if the danger value is not
positive, `bombCount` is below `maxBombCount`, and an enemy is within distance 2 or wood within
distance 1.  Danger values are never negative, so the danger value is then 0; in particular
`BOMB` is never returned while the danger value is positive. -/
theorem Decide_bomb_only_from_offense (S : Strategy State RMap Item) (me : SimpleAgent RMap X)
    (state : State) (hq : Move.BOMB ∉ me.moveQueue.toList)
    (hsp : ∀ r d t, EnqueuesDirectional (fun q => S.MoveTowardsSafePlace state r d q t))
    (hpu : ∀ r d, EnqueuesDirectional (fun q => S.MoveTowardsPowerup state r d q))
    (hen : ∀ r d, EnqueuesDirectional (fun q => S.MoveTowardsEnemy state r d q))
    (hsd : ∀ x y, EnqueuesDirectional (fun q => S.SafeDirections state q x y)) :
    ((_Decide S me state).1 = Move.BOMB →
      S.IsInDanger state me.id ≤ 0 ∧
      (S.agents state me.id).bombCount < (S.agents state me.id).maxBombCount ∧
      (S.IsAdjacentEnemy state me.id 2 = true ∨
        S.IsAdjacentItem state me.id 1 S.WOOD = true)) ∧
    (0 ≤ S.IsInDanger state me.id → (_Decide S me state).1 = Move.BOMB →
      S.IsInDanger state me.id = 0) ∧
    (0 < S.IsInDanger state me.id → (_Decide S me state).1 ≠ Move.BOMB) := by
  have main : (_Decide S me state).1 = Move.BOMB →
      S.IsInDanger state me.id ≤ 0 ∧
      (S.agents state me.id).bombCount < (S.agents state me.id).maxBombCount ∧
      (S.IsAdjacentEnemy state me.id 2 = true ∨
        S.IsAdjacentItem state me.id 1 S.WOOD = true) := by
    intro hB
    by_cases hd : 0 < S.IsInDanger state me.id
    · exfalso
      unfold _Decide at hB
      simp only [gt_iff_lt, hd, if_true] at hB
      split_ifs at hB with h1 h2
      · exact SampleFromMoveQueue_ne_bomb S _ state true
          (no_bomb_after _ (hsp _ _ _) _ hq) hB
      · have := cast_directional (me.rng 0)
        change (Move.cast (1 + me.rng 0 % 4)) = Move.BOMB at hB
        rw [hB] at this
        revert this
        decide
    · by_cases hb : (S.agents state me.id).bombCount < (S.agents state me.id).maxBombCount
      · cases he : S.IsAdjacentEnemy state me.id 2 with
        | true => exact ⟨by omega, hb, Or.inl rfl⟩
        | false =>
          cases hw : S.IsAdjacentItem state me.id 1 S.WOOD with
          | true => exact ⟨by omega, hb, Or.inr rfl⟩
          | false =>
            exfalso
            unfold _Decide at hB
            simp only [gt_iff_lt, hd, if_false, hb, if_true, he, hw, Bool.false_eq_true] at hB
            split_ifs at hB with h1 h2
            · refine MoveSafeOneSpace_ne_bomb S _ state false hsd ?_ hB
              exact hq
            · exact SampleFromMoveQueue_ne_bomb S _ state false
                (no_bomb_after _ (hen _ _) _ hq) hB
            · exact MoveSafeOneSpace_ne_bomb S _ state true hsd
                (no_bomb_after _ (hen _ _) _ hq) hB
      · exfalso
        unfold _Decide at hB
        simp only [gt_iff_lt, hd, if_false, hb] at hB
        split_ifs at hB with h1
        · exact SampleFromMoveQueue_ne_bomb S _ state false
            (no_bomb_after _ (hpu _ _) _ hq) hB
        · exact MoveSafeOneSpace_ne_bomb S _ state true hsd
            (no_bomb_after _ (hpu _ _) _ hq) hB
  refine ⟨main, ?_, ?_⟩
  · intro h0 hB
    have := (main hB).1
    omega
  · intro h0 hB
    have := (main hB).1
    omega

theorem Decide_bomb_only_from_offense_witness :
    (offenseScene.danger ≤ 0 ∧ offenseScene.agent.bombCount < offenseScene.agent.maxBombCount ∧
      (offenseScene.enemyNear = true ∨ offenseScene.woodNear = true)) ∧
    (_Decide sceneStrategy (agentWith (queueOf [Move.LEFT]) (historyOf [⟨1, 0⟩]) 1)
      dangerScene).1 ≠ Move.BOMB :=
  ⟨(Decide_bomb_only_from_offense sceneStrategy
      (agentWith (queueOf [Move.LEFT]) (historyOf [⟨1, 0⟩]) 1) offenseScene (by decide)
      (fun _ _ _ => appendMoves_directional _ (by decide))
      (fun _ _ => appendMoves_directional _ (by decide))
      (fun _ _ => appendMoves_directional _ (by decide))
      (fun _ _ => appendMoves_directional _ (by decide))).1 (by decide),
   (Decide_bomb_only_from_offense sceneStrategy
      (agentWith (queueOf [Move.LEFT]) (historyOf [⟨1, 0⟩]) 1) dangerScene (by decide)
      (fun _ _ _ => appendMoves_directional _ (by decide))
      (fun _ _ => appendMoves_directional _ (by decide))
      (fun _ _ => appendMoves_directional _ (by decide))
      (fun _ _ => appendMoves_directional _ (by decide))).2.2 (by decide)⟩

end agents
